import Mathlib

/-!
Verification of the JSON-to-tables conversion scripts.

The repository holds two Python scripts that discover arrays-of-objects in a
parsed JSON document and materialize each as a flat table:

* `load_json_to_excel.py` — `collect_tables` walks the tree and records
  `path ↦ rows`; sheet names are later derived from the path and uniquified
  against a 31-character sheet-name limit.
* `json_to_table.py` — `traverse_and_collect` walks the tree, grouping sibling
  arrays-of-dicts under one object node by their sampled key-set schema, and
  records uniquified names against a 64-character limit.

The definitions below are shallow embeddings of those functions.  Python dicts
are modelled as association lists in insertion order; Python sets of names are
modelled as lists with membership; pandas `DataFrame(list_of_dicts)` is
modelled by its documented behaviour (column set is the union of row keys in
first-appearance order, missing values become a NaN marker).  The two
recursive traversals are embedded with an explicit fuel parameter (an `Option`
result distinguishes fuel exhaustion); a theorem below shows fuel equal to the
size of the input tree always suffices, which is the termination claim.
-/

/-- A parsed JSON value: null, boolean, number, string, array or object.
Objects are association lists in insertion order, like Python dicts. -/
inductive Json where
  | null : Json
  | bool (b : Bool) : Json
  | num (n : Int) : Json
  | str (s : String) : Json
  | arr (xs : List Json) : Json
  | obj (kvs : List (String × Json)) : Json

/-- A row record: a JSON object's fields (a Python dict). -/
abbrev Obj := List (String × Json)

/-- The table registry: insertion-ordered mapping from table name to rows. -/
abbrev Registry := List (String × List Json)

/-- `isinstance(x, dict)`. -/
def isObjB : Json → Bool
  | .obj _ => true
  | _ => false

/-- The elements of an array value (used only under an array guard). -/
def jElems : Json → List Json
  | .arr xs => xs
  | _ => []

/-- The fields of an object value (used only under an object guard). -/
def jFields : Json → Obj
  | .obj kvs => kvs
  | _ => []

/-- `r.keys()` of an object value. -/
def jKeys (v : Json) : List String := (jFields v).map Prod.fst

/-- Neither a dict nor a list: a scalar (or null). -/
def isScalarB : Json → Bool
  | .obj _ => false
  | .arr _ => false
  | _ => true

/-- `isinstance(v, (dict, list))`. -/
def isContainer : Json → Bool
  | .obj _ => true
  | .arr _ => true
  | _ => false

/-- Embedding of `is_array_of_dicts` (identical in both scripts):
`isinstance(x, list) and len(x) > 0 and all(isinstance(i, dict) for i in x)`. -/
def is_array_of_dicts (x : Json) : Bool :=
  match x with
  | .arr xs => !xs.isEmpty && xs.all isObjB
  | _ => false

/-- Decimal rendering helper: peels off base-10 digits of `n`, most
significant first, with enough fuel.  Structural on the fuel so that it
computes by kernel reduction. -/
def natToDecAux : Nat → Nat → List Char → List Char
  | 0, _, acc => acc
  | fuel + 1, n, acc =>
    if n = 0 then acc else natToDecAux fuel (n / 10) (Nat.digitChar (n % 10) :: acc)

/-- Decimal rendering of a natural number, as Python's `str(i)` / f-string
formatting renders a nonnegative integer. -/
def natToDec (n : Nat) : String :=
  if n = 0 then "0" else String.mk (natToDecAux n n [])

theorem natToDecAux_eq (fuel : Nat) :
    ∀ n acc, n ≤ fuel →
      natToDecAux fuel n acc = ((Nat.digits 10 n).reverse.map Nat.digitChar) ++ acc := by
  induction fuel with
  | zero =>
    intro n acc hn
    have h0 : n = 0 := by omega
    subst h0
    simp [natToDecAux]
  | succ fuel ih =>
    intro n acc hn
    by_cases h0 : n = 0
    · simp [natToDecAux, h0]
    · have hpos : 0 < n := Nat.pos_of_ne_zero h0
      have hdiv : n / 10 ≤ fuel := by
        have : n / 10 < n := Nat.div_lt_self hpos (by norm_num)
        omega
      have hd : Nat.digits 10 n = n % 10 :: Nat.digits 10 (n / 10) :=
        Nat.digits_def' (by norm_num) hpos
      rw [natToDecAux, if_neg h0, ih _ _ hdiv, hd]
      simp [List.append_assoc]

theorem natToDec_eq_of_ne_zero {n : Nat} (h : n ≠ 0) :
    natToDec n = String.mk ((Nat.digits 10 n).reverse.map Nat.digitChar) := by
  rw [natToDec, if_neg h, natToDecAux_eq n n [] le_rfl]
  simp

theorem digitChar_isDigit {d : Nat} (h : d < 10) : (Nat.digitChar d).isDigit = true := by
  have : ∀ d : Fin 10, (Nat.digitChar d.val).isDigit = true := by decide
  exact this ⟨d, h⟩

theorem digitChar_inj_of_lt {a b : Nat} (ha : a < 10) (hb : b < 10)
    (h : Nat.digitChar a = Nat.digitChar b) : a = b := by
  have : ∀ a b : Fin 10, Nat.digitChar a.val = Nat.digitChar b.val → a = b := by decide
  have := this ⟨a, ha⟩ ⟨b, hb⟩ h
  exact congrArg Fin.val this

theorem map_digitChar_inj :
    ∀ (l1 l2 : List Nat), (∀ x ∈ l1, x < 10) → (∀ x ∈ l2, x < 10) →
      l1.map Nat.digitChar = l2.map Nat.digitChar → l1 = l2 := by
  intro l1
  induction l1 with
  | nil =>
    intro l2 _ _ h
    cases l2 with
    | nil => rfl
    | cons b bs => simp at h
  | cons a as ih =>
    intro l2 h1 h2 h
    cases l2 with
    | nil => simp at h
    | cons b bs =>
      simp only [List.map_cons, List.cons.injEq] at h
      have ha : a < 10 := h1 a (by simp)
      have hb : b < 10 := h2 b (by simp)
      have : a = b := digitChar_inj_of_lt ha hb h.1
      have : as = bs := by
        refine ih bs (fun x hx => h1 x (by simp [hx])) (fun x hx => h2 x (by simp [hx])) h.2
      simp_all

theorem natToDec_data_eq {n : Nat} (h : n ≠ 0) :
    (natToDec n).data = (Nat.digits 10 n).reverse.map Nat.digitChar := by
  rw [natToDec_eq_of_ne_zero h]

theorem natToDec_data_isDigit (n : Nat) :
    ∀ c ∈ (natToDec n).data, c.isDigit = true := by
  by_cases h0 : n = 0
  · subst h0; decide
  · rw [natToDec_data_eq h0]
    intro c hc
    simp only [List.mem_map, List.mem_reverse] at hc
    obtain ⟨d, hd, rfl⟩ := hc
    exact digitChar_isDigit (Nat.digits_lt_base (by norm_num) hd)

theorem digits_ten_ne_single_zero (n : Nat) : Nat.digits 10 n ≠ [0] := by
  intro h
  have h1 := Nat.ofDigits_digits 10 n
  rw [h] at h1
  simp [Nat.ofDigits] at h1
  subst h1
  simp at h

theorem natToDec_ne_zero_str {n : Nat} (h : n ≠ 0) : natToDec n ≠ "0" := by
  intro heq
  have hdata := congrArg String.data heq
  rw [natToDec_data_eq h] at hdata
  have hz : ("0" : String).data = ['0'] := rfl
  rw [hz] at hdata
  have h0 : (['0'] : List Char) = [0].map Nat.digitChar := by decide
  rw [h0] at hdata
  have hrev : (Nat.digits 10 n).reverse = [0] := by
    refine map_digitChar_inj _ [0] ?_ (by simp) hdata
    intro x hx
    exact Nat.digits_lt_base (by norm_num) (List.mem_reverse.mp hx)
  have : Nat.digits 10 n = [0] := by
    have := congrArg List.reverse hrev
    simpa using this
  exact digits_ten_ne_single_zero n this

theorem natToDec_injective : Function.Injective natToDec := by
  intro m n h
  by_cases hm : m = 0 <;> by_cases hn : n = 0
  · omega
  · exact absurd (by rw [hm] at h; exact h.symm) (natToDec_ne_zero_str hn)
  · exact absurd (by rw [hn] at h; exact h) (natToDec_ne_zero_str hm)
  · have hdata := congrArg String.data h
    rw [natToDec_data_eq hm, natToDec_data_eq hn] at hdata
    have hrev : (Nat.digits 10 m).reverse = (Nat.digits 10 n).reverse := by
      refine map_digitChar_inj _ _ ?_ ?_ hdata
      · intro x hx
        exact Nat.digits_lt_base (by norm_num) (List.mem_reverse.mp hx)
      · intro x hx
        exact Nat.digits_lt_base (by norm_num) (List.mem_reverse.mp hx)
    have hdig : Nat.digits 10 m = Nat.digits 10 n := by
      have := congrArg List.reverse hrev
      simpa using this
    have h1 := Nat.ofDigits_digits 10 m
    rw [hdig, Nat.ofDigits_digits 10 n] at h1
    omega

theorem natToDec_length_of_ne_zero {n : Nat} (h : n ≠ 0) :
    (natToDec n).length = (Nat.digits 10 n).length := by
  have : (natToDec n).length = (natToDec n).data.length := rfl
  rw [this, natToDec_data_eq h]
  simp

theorem natToDec_length_mono {i j : Nat} (h : i ≤ j) :
    (natToDec i).length ≤ (natToDec j).length := by
  by_cases hi : i = 0
  · subst hi
    have h1 : (natToDec 0).length = 1 := by decide
    rw [h1]
    by_cases hj : j = 0
    · subst hj; omega
    · rw [natToDec_length_of_ne_zero hj]
      have hne : Nat.digits 10 j ≠ [] := Nat.digits_ne_nil_iff_ne_zero.mpr hj
      exact List.length_pos.mpr hne
  · have hj : j ≠ 0 := by omega
    rw [natToDec_length_of_ne_zero hi, natToDec_length_of_ne_zero hj]
    exact Nat.le_digits_len_le 10 i j h

theorem natToDec_length_le {n k : Nat} (hk : 1 ≤ k) (h : n < 10 ^ k) :
    (natToDec n).length ≤ k := by
  by_cases h0 : n = 0
  · subst h0
    have : (natToDec 0).length = 1 := by decide
    omega
  · rw [natToDec_length_of_ne_zero h0]
    by_contra hgt
    push_neg at hgt
    have hlen : k + 1 ≤ (Nat.digits 10 n).length := hgt
    have hle : (10 : Nat) ^ (k + 1) ≤ 10 ^ (Nat.digits 10 n).length :=
      Nat.pow_le_pow_right (by norm_num) hlen
    have hub : (10 : Nat) ^ (Nat.digits 10 n).length ≤ 10 * n :=
      Nat.base_pow_length_digits_le 10 n (by norm_num) h0
    have : (10 : Nat) ^ (k + 1) ≤ 10 * n := le_trans hle hub
    have : (10 : Nat) ^ k ≤ n := by
      rw [pow_succ] at this
      omega
    omega

theorem natToDec_data_ne_nil (n : Nat) : (natToDec n).data ≠ [] := by
  by_cases h0 : n = 0
  · subst h0; decide
  · rw [natToDec_data_eq h0]
    simp only [ne_eq, List.map_eq_nil_iff, List.reverse_eq_nil_iff]
    exact Nat.digits_ne_nil_iff_ne_zero.mpr h0

/-- Python whitespace for `str.strip()`. -/
def isPySpace (c : Char) : Bool :=
  c = ' ' || c = '\t' || c = '\n' || c = '\r' || c = '\x0b' || c = '\x0c'

/-- Python `str.strip()`: drop leading and trailing whitespace. -/
def pyStrip (s : String) : String :=
  String.mk (((s.data.dropWhile isPySpace).reverse.dropWhile isPySpace).reverse)

/-- Does `hay` start with `needle` (on character lists)? -/
def startsL : List Char → List Char → Bool
  | [], _ => true
  | _ :: _, [] => false
  | a :: as, b :: bs => a = b && startsL as bs

/-- Python `s.startswith(p)`. -/
def startsWithPy (s p : String) : Bool := startsL p.data s.data

/-- Does `needle` occur as a contiguous substring of the list? -/
def subL (needle : List Char) : List Char → Bool
  | [] => needle.isEmpty
  | c :: rest => startsL needle (c :: rest) || subL needle rest

/-- Python `needle in hay` for strings. -/
def subS (needle hay : String) : Bool := subL needle.data hay.data

/-- A character forbidden in Excel sheet names: one of `: \ / ? * [ ]`. -/
def invalidSheetChar (c : Char) : Bool :=
  c = ':' || c = '\\' || c = '/' || c = '?' || c = '*' || c = '[' || c = ']'

/-- Embedding of `sanitize_sheet_name` from `load_json_to_excel.py`:
strip, replace forbidden characters by `_`, default to `"Sheet"` when empty,
truncate to 31 characters. -/
def sanitize_sheet_name (name : String) : String :=
  let n1 := pyStrip name
  let n2 := String.mk (n1.data.map (fun c => if invalidSheetChar c then '_' else c))
  let n3 := if n2 = "" then "Sheet" else n2
  if n3.length > 31 then String.mk (n3.data.take 31) else n3

/-- A character kept by `sanitize_name` in `json_to_table.py`
(the regex class `[A-Za-z0-9_.+ -]`). -/
def allowedNameChar (c : Char) : Bool :=
  c.isAlpha || c.isDigit || c = '_' || c = '.' || c = '+' || c = ' ' || c = '-'

/-- Embedding of `sanitize_name` from `json_to_table.py`: strip, default to
`"sheet"` when empty, replace disallowed characters by `_`, truncate to
`maxLen` (the script's default is 64). -/
def sanitize_name (name : String) (maxLen : Nat) : String :=
  let n1 := pyStrip name
  let n2 := if n1 = "" then "sheet" else n1
  let n3 := String.mk (n2.data.map (fun c => if allowedNameChar c then c else '_'))
  if n3.length > maxLen then String.mk (n3.data.take maxLen) else n3

/-- The candidate name tried at step `i` by `uniquify` in `json_to_table.py`:
`f"{base}_{i}"` — no truncation. -/
def cand_jt (base : String) (i : Nat) : String := base ++ "_" ++ natToDec i

/-- The search loop of `uniquify` in `json_to_table.py` (`while name in used`),
with explicit fuel; `none` means the fuel ran out. -/
def findFree_jt (base : String) (used : List String) : Nat → Nat → Option String
  | 0, _ => none
  | fuel + 1, i =>
    if cand_jt base i ∈ used then findFree_jt base used fuel (i + 1)
    else some (cand_jt base i)

/-- Embedding of `uniquify` from `json_to_table.py`: return `name` if free,
otherwise append `_2`, `_3`, … until free; the returned name is added to the
used set.  The fuel `used.length + 1` provably suffices (the candidates are
pairwise distinct), so the fallback arm is never reached. -/
def uniquify_jt (name : String) (used : List String) : String × List String :=
  if name ∈ used then
    match findFree_jt name used (used.length + 1) 2 with
    | some n => (n, n :: used)
    | none => (name, name :: used)
  else (name, name :: used)

/-- The candidate name tried at step `i` by `uniquify` in
`load_json_to_excel.py`: `base[:31 - len(suffix)] + suffix` with
`suffix = f"_{i}"` — the base is truncated so the result fits in 31
characters. -/
def cand_xl (base : String) (i : Nat) : String :=
  String.mk (base.data.take (31 - ('_' :: (natToDec i).data).length) ++
    ('_' :: (natToDec i).data))

/-- The search loop of `uniquify` in `load_json_to_excel.py`
(`while name in used`), with explicit fuel. -/
def uniq_loop_xl (base : String) (used : List String) : Nat → String → Nat → Option String
  | 0, name, _ => if name ∈ used then none else some name
  | fuel + 1, name, i =>
    if name ∈ used then uniq_loop_xl base used fuel (cand_xl base i) (i + 1)
    else some name

/-- Embedding of `uniquify` from `load_json_to_excel.py`.  As for
`uniquify_jt`, the fuel suffices and the fallback arm is never reached. -/
def uniquify_xl (name : String) (used : List String) : String × List String :=
  match uniq_loop_xl name used (used.length + 1) name 2 with
  | some n => (n, n :: used)
  | none => (name, name :: used)

theorem cand_jt_data (base : String) (i : Nat) :
    (cand_jt base i).data = base.data ++ '_' :: (natToDec i).data := by
  show (base ++ "_" ++ natToDec i).data = _
  rw [String.data_append, String.data_append]
  have h : ("_" : String).data = ['_'] := rfl
  rw [h]
  simp

theorem prefix_eq_take {α : Type} {s t a b : List α} (h : s ++ a = t ++ b)
    (hlen : s.length ≤ t.length) : s = t.take s.length := by
  have h1 : (s ++ a).take s.length = s := by
    rw [List.take_append_of_le_length le_rfl, List.take_length]
  have h2 : (t ++ b).take s.length = t.take s.length :=
    List.take_append_of_le_length hlen
  rw [h, h2] at h1
  exact h1.symm

theorem cand_jt_injective (base : String) : Function.Injective (cand_jt base) := by
  intro i j h
  have hdata := congrArg String.data h
  rw [cand_jt_data, cand_jt_data] at hdata
  have := List.append_cancel_left hdata
  have hdec : (natToDec i).data = (natToDec j).data := by
    injection this
  exact natToDec_injective (String.ext hdec)

theorem exists_free_cand {cand : Nat → String} (hinj : Function.Injective cand)
    (used : List String) (start : Nat) :
    ∃ k, start ≤ k ∧ k < start + (used.length + 1) ∧ cand k ∉ used := by
  by_contra hall
  push_neg at hall
  have hmem : ∀ t < used.length + 1, cand (start + t) ∈ used := by
    intro t ht
    exact hall _ (by omega) (by omega)
  have hnd : ((List.range (used.length + 1)).map (fun t => cand (start + t))).Nodup := by
    refine List.Nodup.map ?_ (List.nodup_range _)
    intro a b hab
    have := hinj hab
    omega
  have hsub : ((List.range (used.length + 1)).map (fun t => cand (start + t))).toFinset ⊆
      used.toFinset := by
    intro x hx
    rw [List.mem_toFinset] at hx ⊢
    rw [List.mem_map] at hx
    obtain ⟨t, ht, rfl⟩ := hx
    exact hmem t (List.mem_range.mp ht)
  have hc1 := List.toFinset_card_of_nodup hnd
  have hc2 := Finset.card_le_card hsub
  have hc3 := List.toFinset_card_le used
  simp at hc1
  omega

theorem findFree_jt_mem {base : String} {used : List String} :
    ∀ fuel i out, findFree_jt base used fuel i = some out → out ∉ used := by
  intro fuel
  induction fuel with
  | zero => intro i out h; simp [findFree_jt] at h
  | succ fuel ih =>
    intro i out h
    rw [findFree_jt] at h
    split at h
    · exact ih _ _ h
    · rename_i hfree
      cases h
      exact hfree

theorem findFree_jt_some {base : String} {used : List String} :
    ∀ fuel i, (∃ k, i ≤ k ∧ k < i + fuel ∧ cand_jt base k ∉ used) →
      ∃ out, findFree_jt base used fuel i = some out := by
  intro fuel
  induction fuel with
  | zero =>
    intro i h
    obtain ⟨k, h1, h2, _⟩ := h
    omega
  | succ fuel ih =>
    intro i h
    rw [findFree_jt]
    split
    · rename_i hin
      refine ih (i + 1) ?_
      obtain ⟨k, h1, h2, h3⟩ := h
      refine ⟨k, ?_, by omega, h3⟩
      rcases Nat.eq_or_lt_of_le h1 with rfl | hlt
      · exact absurd hin h3
      · omega
    · exact ⟨_, rfl⟩

theorem uniquify_jt_fresh (name : String) (used : List String) :
    (uniquify_jt name used).1 ∉ used := by
  rw [uniquify_jt]
  split
  · rename_i hin
    obtain ⟨k, hk1, hk2, hk3⟩ := exists_free_cand (cand_jt_injective name) used 2
    obtain ⟨out, hout⟩ := findFree_jt_some (used.length + 1) 2 ⟨k, hk1, by omega, hk3⟩
    rw [hout]
    exact findFree_jt_mem _ _ _ hout
  · rename_i hout
    exact hout

theorem uniquify_jt_used (name : String) (used : List String) :
    (uniquify_jt name used).2 = (uniquify_jt name used).1 :: used := by
  rw [uniquify_jt]
  split
  · split <;> rfl
  · rfl

theorem cand_xl_data (base : String) (i : Nat) :
    (cand_xl base i).data =
      base.data.take (31 - ('_' :: (natToDec i).data).length) ++ '_' :: (natToDec i).data := rfl

theorem cand_xl_injective (base : String) : Function.Injective (cand_xl base) := by
  suffices h : ∀ i j, i ≤ j → cand_xl base i = cand_xl base j → i = j by
    intro i j hij
    rcases le_total i j with h1 | h1
    · exact h i j h1 hij
    · exact (h j i h1 hij.symm).symm
  intro i j hle heq
  have hmono := natToDec_length_mono hle
  have hleni : (natToDec i).length = (natToDec i).data.length := rfl
  have hlenj : (natToDec j).length = (natToDec j).data.length := rfl
  have hdata := congrArg String.data heq
  rw [cand_xl_data, cand_xl_data] at hdata
  have hrev := congrArg List.reverse hdata
  rw [List.reverse_append, List.reverse_append] at hrev
  have hlen2 : ('_' :: (natToDec i).data).reverse.length ≤
      ('_' :: (natToDec j).data).reverse.length := by
    simp
    omega
  have htake : ('_' :: (natToDec i).data).reverse =
      ('_' :: (natToDec j).data).reverse.take (('_' :: (natToDec i).data).reverse.length) :=
    prefix_eq_take hrev hlen2
  by_cases hl : (natToDec i).data.length = (natToDec j).data.length
  · have hfull : ('_' :: (natToDec i).data).reverse = ('_' :: (natToDec j).data).reverse := by
      rw [htake]
      have : ('_' :: (natToDec i).data).reverse.length =
          ('_' :: (natToDec j).data).reverse.length := by simp [hl]
      rw [this, List.take_length]
    have : (natToDec i).data = (natToDec j).data := by
      have := congrArg List.reverse hfull
      simp at this
      exact this
    exact natToDec_injective (String.ext this)
  · exfalso
    have hlt : (natToDec i).data.length < (natToDec j).data.length := by omega
    have hsirev : ('_' :: (natToDec i).data).reverse = (natToDec i).data.reverse ++ ['_'] := by
      simp
    have hsjrev : ('_' :: (natToDec j).data).reverse = (natToDec j).data.reverse ++ ['_'] := by
      simp
    have hlen3 : ('_' :: (natToDec i).data).reverse.length ≤ (natToDec j).data.reverse.length := by
      simp
      omega
    have htake2 : ('_' :: (natToDec j).data).reverse.take
        (('_' :: (natToDec i).data).reverse.length) =
        (natToDec j).data.reverse.take (('_' :: (natToDec i).data).reverse.length) := by
      rw [hsjrev]
      exact List.take_append_of_le_length hlen3
    have hmem : '_' ∈ (natToDec j).data.reverse.take (('_' :: (natToDec i).data).reverse.length) := by
      rw [← htake2, ← htake, hsirev]
      simp
    have hmem2 : '_' ∈ (natToDec j).data := by
      have := List.mem_of_mem_take hmem
      exact List.mem_reverse.mp this
    have := natToDec_data_isDigit j '_' hmem2
    simp at this

theorem uniq_loop_xl_mem {base : String} {used : List String} :
    ∀ fuel name i out, uniq_loop_xl base used fuel name i = some out → out ∉ used := by
  intro fuel
  induction fuel with
  | zero =>
    intro name i out h
    rw [uniq_loop_xl] at h
    split at h
    · simp at h
    · rename_i hfree
      cases h
      exact hfree
  | succ fuel ih =>
    intro name i out h
    rw [uniq_loop_xl] at h
    split at h
    · exact ih _ _ _ h
    · rename_i hfree
      cases h
      exact hfree

theorem uniq_loop_xl_some {base : String} {used : List String} :
    ∀ fuel name i,
      (name ∉ used ∨ ∃ k, i ≤ k ∧ k < i + fuel ∧ cand_xl base k ∉ used) →
      ∃ out, uniq_loop_xl base used fuel name i = some out := by
  intro fuel
  induction fuel with
  | zero =>
    intro name i h
    rw [uniq_loop_xl]
    rcases h with h | ⟨k, h1, h2, _⟩
    · rw [if_neg h]
      exact ⟨_, rfl⟩
    · omega
  | succ fuel ih =>
    intro name i h
    rw [uniq_loop_xl]
    by_cases hin : name ∈ used
    · rw [if_pos hin]
      rcases h with h | ⟨k, h1, h2, h3⟩
      · exact absurd hin h
      · rcases Nat.eq_or_lt_of_le h1 with rfl | hlt
        · exact ih _ _ (Or.inl h3)
        · exact ih _ _ (Or.inr ⟨k, by omega, by omega, h3⟩)
    · rw [if_neg hin]
      exact ⟨_, rfl⟩

theorem uniquify_xl_fresh (name : String) (used : List String) :
    (uniquify_xl name used).1 ∉ used := by
  rw [uniquify_xl]
  obtain ⟨k, hk1, hk2, hk3⟩ := exists_free_cand (cand_xl_injective name) used 2
  obtain ⟨out, hout⟩ :=
    uniq_loop_xl_some (used.length + 1) name 2 (Or.inr ⟨k, hk1, by omega, hk3⟩)
  rw [hout]
  exact uniq_loop_xl_mem _ _ _ _ hout

theorem uniquify_xl_used (name : String) (used : List String) :
    (uniquify_xl name used).2 = (uniquify_xl name used).1 :: used := by
  rw [uniquify_xl]
  split <;> rfl

theorem cand_xl_length_le {base : String} {i : Nat}
    (h : ('_' :: (natToDec i).data).length ≤ 31) : (cand_xl base i).length ≤ 31 := by
  have : (cand_xl base i).length = (cand_xl base i).data.length := rfl
  rw [this, cand_xl_data]
  rw [List.length_append, List.length_take]
  omega

theorem uniq_loop_xl_length {base : String} {used : List String} :
    ∀ fuel name i out, name.length ≤ 31 →
      (∀ k, i ≤ k → k < i + fuel → ('_' :: (natToDec k).data).length ≤ 31) →
      uniq_loop_xl base used fuel name i = some out → out.length ≤ 31 := by
  intro fuel
  induction fuel with
  | zero =>
    intro name i out hn _ h
    rw [uniq_loop_xl] at h
    split at h
    · simp at h
    · cases h
      exact hn
  | succ fuel ih =>
    intro name i out hn hk h
    rw [uniq_loop_xl] at h
    split at h
    · refine ih _ _ _ ?_ ?_ h
      · exact cand_xl_length_le (hk i le_rfl (by omega))
      · intro k hk1 hk2
        exact hk k (by omega) (by omega)
    · cases h
      exact hn

theorem uniquify_xl_length {name : String} {used : List String}
    (h31 : name.length ≤ 31) (hsmall : used.length + 3 ≤ 10 ^ 28) :
    (uniquify_xl name used).1.length ≤ 31 := by
  rw [uniquify_xl]
  have hbound : ∀ k, 2 ≤ k → k < 2 + (used.length + 1) →
      ('_' :: (natToDec k).data).length ≤ 31 := by
    intro k _ hk2
    have hklt : k < 10 ^ 28 := by
      have h10 : used.length + 3 ≤ 10 ^ 28 := hsmall
      omega
    have := natToDec_length_le (n := k) (k := 28) (by norm_num) hklt
    have hdl : (natToDec k).length = (natToDec k).data.length := rfl
    simp
    omega
  cases hloop : uniq_loop_xl name used (used.length + 1) name 2 with
  | none => exact h31
  | some out =>
    exact uniq_loop_xl_length _ _ _ _ h31 hbound hloop

/-- Python dict assignment `out[path] = rows`: replace the binding if the key
exists (keeping its position), otherwise append it. -/
def setEntry : Registry → String → List Json → Registry
  | [], n, rs => [(n, rs)]
  | (k, v) :: rest, n, rs =>
    if k = n then (k, rs) :: rest else (k, v) :: setEntry rest n rs

/-- Python `defaultdict(list)` update `sheets[name].extend(rows)`: append the
rows to the existing binding, or create a new binding at the end. -/
def extendSheet : Registry → String → List Json → Registry
  | [], n, rs => [(n, rs)]
  | (k, v) :: rest, n, rs =>
    if k = n then (k, v ++ rs) :: rest else (k, v) :: extendSheet rest n rs

/-- Total number of rows across all registry entries. -/
def sheetsRows (sheets : Registry) : Nat := (sheets.map (fun e => e.2.length)).sum

theorem extendSheet_rows (sheets : Registry) (n : String) (rs : List Json) :
    sheetsRows (extendSheet sheets n rs) = sheetsRows sheets + rs.length := by
  induction sheets with
  | nil => simp [extendSheet, sheetsRows]
  | cons e rest ih =>
    obtain ⟨k, v⟩ := e
    rw [extendSheet]
    split
    · simp [sheetsRows]
      omega
    · simp only [sheetsRows, List.map_cons, List.sum_cons] at ih ⊢
      omega

/-- The sampling loop of `union_keys` in `json_to_table.py`: update the key
set with each row's keys, stopping after `sample` rows. -/
def unionKeysGo : List Json → Nat → Finset String → Nat → Finset String
  | [], _, acc, _ => acc
  | r :: rest, i, acc, sample =>
    if i + 1 ≥ sample then acc ∪ (jKeys r).toFinset
    else unionKeysGo rest (i + 1) (acc ∪ (jKeys r).toFinset) sample

/-- Embedding of `union_keys` from `json_to_table.py`: the union of the keys
of (up to) the first `sample` rows, as a set (Python `frozenset`).  The
script always calls it with the default `sample = 500`. -/
def union_keys (rows : List Json) (sample : Nat) : Finset String :=
  unionKeysGo rows 0 ∅ sample

/-- The sibling-array groups accumulated at one object node: schema
(frozenset of keys) paired with the `(key, rows)` arrays carrying it, both in
insertion order — the model of `schema_groups: defaultdict(list)`. -/
abbrev Groups := List (Finset String × List (String × List Json))

/-- Append `(key, rows)` to the group with schema `s`, or start a new group
at the end (Python `schema_groups[schema].append((k, v))`). -/
def insertGroup : Groups → Finset String → String × List Json → Groups
  | [], s, m => [(s, [m])]
  | (s2, items) :: rest, s, m =>
    if s2 = s then (s2, items ++ [m]) :: rest
    else (s2, items) :: insertGroup rest s m

/-- The grouping pass of `traverse_and_collect` over one dict node: each
child that is an array-of-dicts with a non-empty sampled schema is inserted
into the group of its schema; others are skipped. -/
def buildGroups (kvs : Obj) : Groups :=
  kvs.foldl (fun gs kv =>
    if is_array_of_dicts kv.2 then
      if (union_keys (jElems kv.2) 500).card == 0 then gs
      else insertGroup gs (union_keys (jElems kv.2) 500) (kv.1, jElems kv.2)
    else gs) []

/-- Membership of an array in some group. -/
def memG (x : String × List Json) (gs : Groups) : Prop := ∃ g ∈ gs, x ∈ g.2

theorem memG_insertGroup {gs : Groups} {s : Finset String} {m x : String × List Json}
    (h : memG x (insertGroup gs s m)) : memG x gs ∨ x = m := by
  induction gs with
  | nil =>
    obtain ⟨g, hg, hx⟩ := h
    simp [insertGroup] at hg
    subst hg
    simp at hx
    exact Or.inr hx
  | cons g2 rest ih =>
    obtain ⟨s2, items⟩ := g2
    rw [insertGroup] at h
    split at h
    · obtain ⟨g, hg, hx⟩ := h
      rcases List.mem_cons.mp hg with rfl | hg2
      · rcases List.mem_append.mp hx with hx1 | hx2
        · exact Or.inl ⟨(s2, items), by simp, hx1⟩
        · simp at hx2
          exact Or.inr hx2
      · exact Or.inl ⟨g, by simp [hg2], hx⟩
    · obtain ⟨g, hg, hx⟩ := h
      rcases List.mem_cons.mp hg with rfl | hg2
      · exact Or.inl ⟨(s2, items), by simp, hx⟩
      · rcases ih ⟨g, hg2, hx⟩ with h2 | h2
        · obtain ⟨g3, hg3, hx3⟩ := h2
          exact Or.inl ⟨g3, by simp [hg3], hx3⟩
        · exact Or.inr h2

theorem memG_buildGroups {kvs : Obj} {x : String × List Json}
    (h : memG x (buildGroups kvs)) :
    ∃ v, (x.1, v) ∈ kvs ∧ is_array_of_dicts v = true ∧ jElems v = x.2 := by
  suffices haux : ∀ (l : Obj) (gs : Groups), memG x (l.foldl (fun gs kv =>
      if is_array_of_dicts kv.2 then
        if (union_keys (jElems kv.2) 500).card == 0 then gs
        else insertGroup gs (union_keys (jElems kv.2) 500) (kv.1, jElems kv.2)
      else gs) gs) →
      memG x gs ∨ ∃ v, (x.1, v) ∈ l ∧ is_array_of_dicts v = true ∧ jElems v = x.2 by
    rcases haux kvs [] h with h2 | h2
    · obtain ⟨g, hg, _⟩ := h2
      simp at hg
    · exact h2
  intro l
  induction l with
  | nil =>
    intro gs h2
    exact Or.inl h2
  | cons kv rest ih =>
    intro gs h2
    rw [List.foldl_cons] at h2
    rcases ih _ h2 with h3 | h3
    · split at h3
      · split at h3
        · exact Or.inl h3
        · rcases memG_insertGroup h3 with h4 | h4
          · exact Or.inl h4
          · refine Or.inr ⟨kv.2, ?_, by assumption, ?_⟩
            · rw [h4]
              simp
            · rw [h4]
      · exact Or.inl h3
    · obtain ⟨v, hv, hav, hev⟩ := h3
      exact Or.inr ⟨v, by simp [hv], hav, hev⟩

/-- Sum of a per-array quantity over all groups. -/
def itemsSum (f : String × List Json → Nat) (gs : Groups) : Nat :=
  (gs.map (fun g => (g.2.map f).sum)).sum

theorem insertGroup_itemsSum (f : String × List Json → Nat) (gs : Groups)
    (s : Finset String) (m : String × List Json) :
    itemsSum f (insertGroup gs s m) = itemsSum f gs + f m := by
  induction gs with
  | nil => simp [insertGroup, itemsSum]
  | cons g rest ih =>
    obtain ⟨s2, items⟩ := g
    rw [insertGroup]
    split
    · simp [itemsSum]
      omega
    · simp only [itemsSum, List.map_cons, List.sum_cons] at ih ⊢
      omega

theorem buildGroups_itemsSum (f : String × List Json → Nat) (kvs : Obj)
    (h : ∀ kv ∈ kvs, is_array_of_dicts kv.2 = true →
      (union_keys (jElems kv.2) 500).card ≠ 0) :
    itemsSum f (buildGroups kvs) =
      ((kvs.filter (fun kv => is_array_of_dicts kv.2)).map
        (fun kv => f (kv.1, jElems kv.2))).sum := by
  suffices haux : ∀ (l : Obj) (gs : Groups),
      (∀ kv ∈ l, is_array_of_dicts kv.2 = true →
        (union_keys (jElems kv.2) 500).card ≠ 0) →
      itemsSum f (l.foldl (fun gs kv =>
        if is_array_of_dicts kv.2 then
          if (union_keys (jElems kv.2) 500).card == 0 then gs
          else insertGroup gs (union_keys (jElems kv.2) 500) (kv.1, jElems kv.2)
        else gs) gs) =
      itemsSum f gs +
        ((l.filter (fun kv => is_array_of_dicts kv.2)).map
          (fun kv => f (kv.1, jElems kv.2))).sum by
    have hres := haux kvs [] h
    have h0 : itemsSum f ([] : Groups) = 0 := rfl
    rw [h0, Nat.zero_add] at hres
    exact hres
  intro l
  induction l with
  | nil =>
    intro gs _
    simp
  | cons kv rest ih =>
    intro gs hl
    rw [List.foldl_cons]
    by_cases hav : is_array_of_dicts kv.2 = true
    · have hcard : (union_keys (jElems kv.2) 500).card ≠ 0 :=
        hl kv (by simp) hav
      rw [if_pos hav, if_neg (by simpa using hcard)]
      rw [ih _ (fun kv2 hkv2 => hl kv2 (by simp [hkv2]))]
      rw [insertGroup_itemsSum]
      rw [List.filter_cons_of_pos (by simp [hav])]
      simp
      omega
    · rw [if_neg hav]
      rw [ih _ (fun kv2 hkv2 => hl kv2 (by simp [hkv2]))]
      rw [List.filter_cons_of_neg (by simp [hav])]

/-- Left fold in the `Option` monad with explicit short-circuiting; the
traversals below use it to thread state through their loops. -/
def foldSome {α β : Type} (f : β → α → Option β) : β → List α → Option β
  | b, [] => some b
  | b, a :: as =>
    match f b a with
    | none => none
    | some b2 => foldSome f b2 as

theorem foldSome_isSome {α β : Type} {f : β → α → Option β} :
    ∀ (as : List α), (∀ a ∈ as, ∀ b, ∃ b2, f b a = some b2) →
      ∀ b, ∃ b2, foldSome f b as = some b2 := by
  intro as
  induction as with
  | nil =>
    intro _ b
    exact ⟨b, rfl⟩
  | cons a rest ih =>
    intro h b
    obtain ⟨b2, hb2⟩ := h a (by simp) b
    rw [foldSome, hb2]
    exact ih (fun x hx => h x (by simp [hx])) b2

theorem foldSome_id {α β : Type} {f : β → α → Option β} :
    ∀ (as : List α), (∀ a ∈ as, ∀ b b2, f b a = some b2 → b2 = b) →
      ∀ b b2, foldSome f b as = some b2 → b2 = b := by
  intro as
  induction as with
  | nil =>
    intro _ b b2 h
    rw [foldSome] at h
    cases h
    rfl
  | cons a rest ih =>
    intro h b b2 hfold
    rw [foldSome] at hfold
    cases hfa : f b a with
    | none => rw [hfa] at hfold; cases hfold
    | some b3 =>
      rw [hfa] at hfold
      have h1 : b3 = b := h a (by simp) b b3 hfa
      have h2 := ih (fun x hx => h x (by simp [hx])) b3 b2 hfold
      rw [h2, h1]

theorem foldSome_measure {α β : Type} {f : β → α → Option β} (μ : β → Nat) (g : α → Nat) :
    ∀ (as : List α), (∀ a ∈ as, ∀ b b2, f b a = some b2 → μ b2 = μ b + g a) →
      ∀ b b2, foldSome f b as = some b2 → μ b2 = μ b + (as.map g).sum := by
  intro as
  induction as with
  | nil =>
    intro _ b b2 h
    rw [foldSome] at h
    cases h
    simp
  | cons a rest ih =>
    intro h b b2 hfold
    rw [foldSome] at hfold
    cases hfa : f b a with
    | none => rw [hfa] at hfold; cases hfold
    | some b3 =>
      rw [hfa] at hfold
      have h1 : μ b3 = μ b + g a := h a (by simp) b b3 hfa
      have h2 := ih (fun x hx => h x (by simp [hx])) b3 b2 hfold
      rw [h2, h1]
      simp
      omega

theorem foldSome_eq_foldl {α β : Type} {f : β → α → Option β} {g : β → α → β} :
    ∀ (as : List α), (∀ a ∈ as, ∀ b, f b a = some (g b a)) →
      ∀ b, foldSome f b as = some (as.foldl g b) := by
  intro as
  induction as with
  | nil =>
    intro _ b
    simp [foldSome]
  | cons a rest ih =>
    intro h b
    rw [foldSome, h a (by simp) b]
    rw [List.foldl_cons]
    exact ih (fun x hx => h x (by simp [hx])) (g b a)

/-- Sum of a list of optional numbers; `none` if any entry is `none`. -/
def optSum : List (Option Nat) → Option Nat
  | [] => some 0
  | none :: _ => none
  | some t :: rest => (optSum rest).map (fun s => t + s)

/-- Conjunction of a list of optional booleans; `none` if any entry is `none`. -/
def optAll : List (Option Bool) → Option Bool
  | [] => some true
  | none :: _ => none
  | some b :: rest => (optAll rest).map (fun c => b && c)

/-- Disjunction of a list of optional booleans; `none` if any entry is `none`. -/
def optAny : List (Option Bool) → Option Bool
  | [] => some false
  | none :: _ => none
  | some b :: rest => (optAny rest).map (fun c => b || c)

theorem optSum_map {α : Type} (h : α → Option Nat) :
    ∀ (xs : List α) (s : Nat), optSum (xs.map h) = some s →
      (∀ x ∈ xs, ∃ t, h x = some t) ∧ s = (xs.map (fun x => (h x).getD 0)).sum := by
  intro xs
  induction xs with
  | nil =>
    intro s hs
    rw [List.map_nil, optSum] at hs
    cases hs
    exact ⟨by simp, by simp⟩
  | cons x rest ih =>
    intro s hs
    rw [List.map_cons] at hs
    cases hx : h x with
    | none => rw [hx] at hs; rw [optSum] at hs; cases hs
    | some t =>
      rw [hx] at hs
      rw [optSum] at hs
      cases hrest : optSum (rest.map h) with
      | none => rw [hrest] at hs; cases hs
      | some s2 =>
        rw [hrest] at hs
        simp at hs
        obtain ⟨h1, h2⟩ := ih s2 hrest
        constructor
        · intro y hy
          rcases List.mem_cons.mp hy with rfl | hy2
          · exact ⟨t, hx⟩
          · exact h1 y hy2
        · simp [hx, ← hs, h2]

theorem optAll_true {α : Type} (h : α → Option Bool) :
    ∀ (xs : List α), optAll (xs.map h) = some true → ∀ x ∈ xs, h x = some true := by
  intro xs
  induction xs with
  | nil => intro _ x hx; simp at hx
  | cons x rest ih =>
    intro hs y hy
    rw [List.map_cons] at hs
    cases hx : h x with
    | none => rw [hx] at hs; rw [optAll] at hs; cases hs
    | some b =>
      rw [hx] at hs
      rw [optAll] at hs
      cases hrest : optAll (rest.map h) with
      | none => rw [hrest] at hs; cases hs
      | some c =>
        rw [hrest] at hs
        simp at hs
        obtain ⟨hb, hc⟩ := hs
        rcases List.mem_cons.mp hy with rfl | hy2
        · rw [hx, hb]
        · exact ih (by rw [hrest, hc]) y hy2

theorem optAny_false {α : Type} (h : α → Option Bool) :
    ∀ (xs : List α), optAny (xs.map h) = some false → ∀ x ∈ xs, h x = some false := by
  intro xs
  induction xs with
  | nil => intro _ x hx; simp at hx
  | cons x rest ih =>
    intro hs y hy
    rw [List.map_cons] at hs
    cases hx : h x with
    | none => rw [hx] at hs; rw [optAny] at hs; cases hs
    | some b =>
      rw [hx] at hs
      rw [optAny] at hs
      cases hrest : optAny (rest.map h) with
      | none => rw [hrest] at hs; cases hs
      | some c =>
        rw [hrest] at hs
        simp at hs
        obtain ⟨hb, hc⟩ := hs
        rcases List.mem_cons.mp hy with rfl | hy2
        · rw [hx, hb]
        · exact ih (by rw [hrest, hc]) y hy2

/-- A qualifying value is a non-empty array of objects. -/
theorem aod_shape {v : Json} (h : is_array_of_dicts v = true) :
    ∃ xs, v = Json.arr xs ∧ xs ≠ [] ∧ ∀ x ∈ xs, isObjB x = true := by
  cases v with
  | arr xs =>
    rw [is_array_of_dicts] at h
    simp at h
    exact ⟨xs, rfl, by simpa using h.1, by simpa [List.all_eq_true] using h.2⟩
  | null => simp [is_array_of_dicts] at h
  | bool b => simp [is_array_of_dicts] at h
  | num n => simp [is_array_of_dicts] at h
  | str s => simp [is_array_of_dicts] at h
  | obj kvs => simp [is_array_of_dicts] at h

theorem sizeOf_mem_arr {x : Json} {xs : List Json} (h : x ∈ xs) :
    sizeOf x < sizeOf (Json.arr xs) := by
  have := List.sizeOf_lt_of_mem h
  simp only [Json.arr.sizeOf_spec]
  omega

theorem sizeOf_mem_obj {k : String} {v : Json} {kvs : Obj} (h : (k, v) ∈ kvs) :
    sizeOf v < sizeOf (Json.obj kvs) := by
  have h1 := List.sizeOf_lt_of_mem h
  have h2 : sizeOf (k, v) = 1 + sizeOf k + sizeOf v := rfl
  simp only [Json.obj.sizeOf_spec]
  omega

/-- Total row count over every array-of-objects subterm of a value (each
qualifying array contributes its length, and its elements are scanned
recursively, as are all other subterms).  Fuelled; `none` means the fuel ran
out. -/
def tableRowSumF : Nat → Json → Option Nat
  | 0, _ => none
  | fuel + 1, v =>
    match v with
    | .arr xs =>
      (optSum (xs.map (tableRowSumF fuel))).map
        (fun s => (if is_array_of_dicts (.arr xs) then xs.length else 0) + s)
    | .obj kvs => optSum (kvs.map (fun kv => tableRowSumF fuel kv.2))
    | _ => some 0

/-- Does every array-of-objects subterm of the value have a non-empty sampled
key union (`union_keys` over its first 500 rows)?  Fuelled. -/
def goodDocF : Nat → Json → Option Bool
  | 0, _ => none
  | fuel + 1, v =>
    match v with
    | .arr xs =>
      (optAll (xs.map (goodDocF fuel))).map
        (fun b =>
          (if is_array_of_dicts (.arr xs) then !((union_keys xs 500).card == 0) else true) && b)
    | .obj kvs => optAll (kvs.map (fun kv => goodDocF fuel kv.2))
    | _ => some true

/-- Does the value contain any array-of-objects subterm?  Fuelled. -/
def hasTableF : Nat → Json → Option Bool
  | 0, _ => none
  | fuel + 1, v =>
    match v with
    | .arr xs =>
      (optAny (xs.map (hasTableF fuel))).map
        (fun b => is_array_of_dicts (.arr xs) || b)
    | .obj kvs => optAny (kvs.map (fun kv => hasTableF fuel kv.2))
    | _ => some false

/-- The traversal state of `traverse_and_collect`: the sheets registry and
the set of used names. -/
abbrev TState := Registry × List String

/-- The base name used when `traverse_and_collect` registers an array node:
`path[-1] if path else "root"`. -/
def baseNameJt (path : List String) : String := (path.getLast?).getD "root"

/-- Embedding of `traverse_and_collect` from `json_to_table.py`, with
explicit fuel (`none` means the fuel ran out; a theorem below shows fuel
equal to the size of the node always suffices).

* An array-of-dicts node is registered under its last path segment (or
  `"root"`), sanitized and uniquified, and traversal recurses into each
  element at the same path.
* A dict node groups its array-of-dicts children by sampled schema
  (`buildGroups`), skipping groups with an empty sampled key union; each
  group is registered under the single child key, or the keys joined with
  `+`, prefixed by the parent path segment unless already so prefixed;
  traversal then recurses into the rows of the group's arrays with the sheet
  name appended to the path, and finally into every non-array-of-dicts
  dict-or-list child.
* Any other list recurses into its elements at the same path; scalars do
  nothing. -/
def traverse_and_collect : Nat → Json → List String → TState → Option TState
  | 0, _, _, _ => none
  | fuel + 1, node, path, st =>
    if is_array_of_dicts node then
      let nm := uniquify_jt (sanitize_name (baseNameJt path) 64) st.2
      foldSome (fun s item => traverse_and_collect fuel item path s)
        (extendSheet st.1 nm.1 (jElems node), nm.2) (jElems node)
    else
      match node with
      | .obj kvs =>
        (foldSome (fun s g =>
            let ks := g.2.map Prod.fst
            let base0 := match ks with
              | [k] => k
              | _ => String.intercalate "+" ks
            let ph := (path.getLast?).getD ""
            let base1 := if ph ≠ "" ∧ startsWithPy base0 (ph ++ ".") = false
              then ph ++ "." ++ base0 else base0
            let nm := uniquify_jt (sanitize_name base1 64) s.2
            foldSome (fun s2 kr =>
              foldSome (fun s3 item =>
                traverse_and_collect fuel item (path ++ [nm.1]) s3) s2 kr.2)
              (extendSheet s.1 nm.1 (g.2.foldl (fun acc kr => acc ++ kr.2) []), nm.2) g.2)
          st (buildGroups kvs)).bind (fun st1 =>
          foldSome (fun s kv =>
            if is_array_of_dicts kv.2 then some s
            else if isContainer kv.2 then
              traverse_and_collect fuel kv.2 (path ++ [kv.1]) s
            else some s) st1 kvs)
      | .arr xs =>
        foldSome (fun s item => traverse_and_collect fuel item path s) st xs
      | _ => some st

/-- Embedding of `collect_tables` from `load_json_to_excel.py`, with explicit
fuel.

* An array-of-dicts is stored under the current path and traversal stops.
* A dict stores each array-of-dicts child under `path.key` and recurses into
  other dict-or-list children.
* An empty list becomes a zero-row table when `includeEmpty` is set; any
  other list stores array-of-dicts elements under `path[idx]` and recurses
  into other dict-or-list elements.
* Scalars contribute nothing. -/
def collect_tables : Nat → Json → String → Registry → Bool → Option Registry
  | 0, _, _, _, _ => none
  | fuel + 1, node, path, out, includeEmpty =>
    if is_array_of_dicts node then some (setEntry out path (jElems node))
    else
      match node with
      | .obj kvs =>
        foldSome (fun o kv =>
          let subpath := if path ≠ "" then path ++ "." ++ kv.1 else kv.1
          if is_array_of_dicts kv.2 then some (setEntry o subpath (jElems kv.2))
          else if isContainer kv.2 then
            collect_tables fuel kv.2 subpath o includeEmpty
          else some o) out kvs
      | .arr xs =>
        if xs.isEmpty && includeEmpty then some (setEntry out path [])
        else
          foldSome (fun o p =>
            let subpath := path ++ "[" ++ natToDec p.1 ++ "]"
            if is_array_of_dicts p.2 then some (setEntry o subpath (jElems p.2))
            else if isContainer p.2 then
              collect_tables fuel p.2 subpath o includeEmpty
            else some o) out xs.enum
      | _ => some out

theorem sizeOf_json_pos (v : Json) : 0 < sizeOf v := by
  cases v <;> simp

theorem traverse_total :
    ∀ (fuel : Nat) (v : Json), sizeOf v ≤ fuel → ∀ path st,
      ∃ st2, traverse_and_collect fuel v path st = some st2 := by
  intro fuel
  induction fuel with
  | zero =>
    intro v hv
    have := sizeOf_json_pos v
    omega
  | succ fuel ih =>
    intro v hv path st
    by_cases haod : is_array_of_dicts v = true
    · obtain ⟨xs, rfl, _, _⟩ := aod_shape haod
      rw [traverse_and_collect, if_pos haod]
      refine foldSome_isSome _ ?_ _
      intro item hitem s
      refine ih item ?_ path s
      have h1 : jElems (Json.arr xs) = xs := rfl
      rw [h1] at hitem
      have := sizeOf_mem_arr hitem
      omega
    · cases v with
      | obj kvs =>
        rw [traverse_and_collect, if_neg haod]
        have hgroups : ∀ g ∈ buildGroups kvs, ∀ (s : TState),
            ∃ s2, (fun (s : TState) (g : Finset String × List (String × List Json)) =>
              let ks := g.2.map Prod.fst
              let base0 := match ks with
                | [k] => k
                | _ => String.intercalate "+" ks
              let ph := (path.getLast?).getD ""
              let base1 := if ph ≠ "" ∧ startsWithPy base0 (ph ++ ".") = false
                then ph ++ "." ++ base0 else base0
              let nm := uniquify_jt (sanitize_name base1 64) s.2
              foldSome (fun s2 kr =>
                foldSome (fun s3 item =>
                  traverse_and_collect fuel item (path ++ [nm.1]) s3) s2 kr.2)
                (extendSheet s.1 nm.1 (g.2.foldl (fun acc kr => acc ++ kr.2) []), nm.2) g.2)
              s g = some s2 := by
          intro g hg s
          refine foldSome_isSome _ ?_ _
          intro kr hkr s2
          refine foldSome_isSome _ ?_ _
          intro item hitem s3
          have hmem : memG kr (buildGroups kvs) := ⟨g, hg, hkr⟩
          obtain ⟨v2, hv2, hav2, hev2⟩ := memG_buildGroups hmem
          obtain ⟨xs2, heq2, _, _⟩ := aod_shape hav2
          refine ih item ?_ _ s3
          have hx2 : xs2 = kr.2 := by
            rw [heq2] at hev2
            exact hev2
          have hsz1 : sizeOf item < sizeOf v2 := by
            rw [heq2]
            exact sizeOf_mem_arr (by rw [hx2]; exact hitem)
          have hsz2 : sizeOf v2 < sizeOf (Json.obj kvs) := sizeOf_mem_obj hv2
          omega
        obtain ⟨st1, hst1⟩ := foldSome_isSome _ hgroups st
        rw [hst1]
        refine foldSome_isSome _ ?_ _
        intro kv hkv s
        obtain ⟨k2, v2⟩ := kv
        by_cases h1 : is_array_of_dicts v2 = true
        · exact ⟨s, by simp [h1]⟩
        · by_cases h2 : isContainer v2 = true
          · have hsz : sizeOf v2 < sizeOf (Json.obj kvs) := sizeOf_mem_obj hkv
            obtain ⟨s2, hs2⟩ := ih v2 (by omega) (path ++ [k2]) s
            refine ⟨s2, ?_⟩
            simp only [h1, h2]
            simpa using hs2
          · exact ⟨s, by simp [h1, h2]⟩
      | arr xs =>
        rw [traverse_and_collect, if_neg haod]
        refine foldSome_isSome _ ?_ _
        intro item hitem s
        refine ih item ?_ path s
        have := sizeOf_mem_arr hitem
        omega
      | null => exact ⟨st, rfl⟩
      | bool b => exact ⟨st, rfl⟩
      | num n => exact ⟨st, rfl⟩
      | str s2 => exact ⟨st, rfl⟩

theorem collect_total :
    ∀ (fuel : Nat) (v : Json), sizeOf v ≤ fuel → ∀ path out ie,
      ∃ out2, collect_tables fuel v path out ie = some out2 := by
  intro fuel
  induction fuel with
  | zero =>
    intro v hv
    have := sizeOf_json_pos v
    omega
  | succ fuel ih =>
    intro v hv path out ie
    by_cases haod : is_array_of_dicts v = true
    · obtain ⟨xs, rfl, _, _⟩ := aod_shape haod
      exact ⟨_, by rw [collect_tables, if_pos haod]⟩
    · cases v with
      | obj kvs =>
        rw [collect_tables, if_neg haod]
        refine foldSome_isSome _ ?_ _
        intro kv hkv o
        obtain ⟨k2, v2⟩ := kv
        cases h1 : is_array_of_dicts v2 with
        | true =>
          refine ⟨setEntry o (if path ≠ "" then path ++ "." ++ k2 else k2) (jElems v2), ?_⟩
          simp only [h1]
          rfl
        | false =>
          cases h2 : isContainer v2 with
          | true =>
            have hsz : sizeOf v2 < sizeOf (Json.obj kvs) := sizeOf_mem_obj hkv
            obtain ⟨o2, ho2⟩ := ih v2 (by omega)
              (if path ≠ "" then path ++ "." ++ k2 else k2) o ie
            refine ⟨o2, ?_⟩
            simp only [h1, h2]
            simpa using ho2
          | false =>
            refine ⟨o, ?_⟩
            simp only [h1, h2]
            rfl
      | arr xs =>
        rw [collect_tables, if_neg haod]
        by_cases hemp : (xs.isEmpty && ie) = true
        · exact ⟨_, by rw [if_pos hemp]⟩
        · rw [if_neg hemp]
          refine foldSome_isSome _ ?_ _
          intro p hp o
          obtain ⟨i, x⟩ := p
          have hx : x ∈ xs := by
            have h3 := List.mem_enum hp
            rw [h3.2]
            exact List.getElem_mem h3.1
          cases h1 : is_array_of_dicts x with
          | true =>
            refine ⟨setEntry o (path ++ "[" ++ natToDec i ++ "]") (jElems x), ?_⟩
            simp only [h1]
            rfl
          | false =>
            cases h2 : isContainer x with
            | true =>
              have hsz : sizeOf x < sizeOf (Json.arr xs) := sizeOf_mem_arr hx
              obtain ⟨o2, ho2⟩ := ih x (by omega)
                (path ++ "[" ++ natToDec i ++ "]") o ie
              refine ⟨o2, ?_⟩
              simp only [h1, h2]
              simpa using ho2
            | false =>
              refine ⟨o, ?_⟩
              simp only [h1, h2]
              rfl
      | null => exact ⟨out, rfl⟩
      | bool b => exact ⟨out, rfl⟩
      | num n => exact ⟨out, rfl⟩
      | str s2 => exact ⟨out, rfl⟩

theorem hasTableF_aod_false :
    ∀ (fuel : Nat) (v : Json), hasTableF fuel v = some false →
      is_array_of_dicts v = false := by
  intro fuel v h
  cases fuel with
  | zero => rw [hasTableF] at h; cases h
  | succ fuel =>
    cases v with
    | arr xs =>
      rw [hasTableF] at h
      obtain ⟨b, _, hcond⟩ := Option.map_eq_some'.mp h
      have := Bool.or_eq_false_iff.mp hcond
      exact this.1
    | null => rfl
    | bool b => rfl
    | num n => rfl
    | str s => rfl
    | obj kvs => rfl

theorem hasTableF_children_arr {fuel : Nat} {xs : List Json}
    (h : hasTableF (fuel + 1) (.arr xs) = some false) :
    ∀ x ∈ xs, hasTableF fuel x = some false := by
  rw [hasTableF] at h
  obtain ⟨b, hb, hcond⟩ := Option.map_eq_some'.mp h
  have hb2 := Bool.or_eq_false_iff.mp hcond
  rw [hb2.2] at hb
  exact optAny_false _ xs hb

theorem hasTableF_children_obj {fuel : Nat} {kvs : Obj}
    (h : hasTableF (fuel + 1) (.obj kvs) = some false) :
    ∀ kv ∈ kvs, hasTableF fuel kv.2 = some false := by
  rw [hasTableF] at h
  exact optAny_false _ kvs h

theorem buildGroups_nil {kvs : Obj} (h : ∀ kv ∈ kvs, is_array_of_dicts kv.2 = false) :
    buildGroups kvs = [] := by
  suffices haux : ∀ (l : Obj) (gs : Groups), (∀ kv ∈ l, is_array_of_dicts kv.2 = false) →
      l.foldl (fun gs kv =>
        if is_array_of_dicts kv.2 then
          if (union_keys (jElems kv.2) 500).card == 0 then gs
          else insertGroup gs (union_keys (jElems kv.2) 500) (kv.1, jElems kv.2)
        else gs) gs = gs by
    exact haux kvs [] h
  intro l
  induction l with
  | nil => intro gs _; rfl
  | cons kv rest ih =>
    intro gs hl
    rw [List.foldl_cons, if_neg (by simp [hl kv (by simp)])]
    exact ih gs (fun kv2 hkv2 => hl kv2 (by simp [hkv2]))

theorem collect_no_tables :
    ∀ (fuel : Nat) (v : Json) (fm : Nat), hasTableF fm v = some false →
      ∀ path out out2, collect_tables fuel v path out false = some out2 → out2 = out := by
  intro fuel
  induction fuel with
  | zero =>
    intro v fm _ path out out2 h
    rw [collect_tables] at h
    cases h
  | succ fuel ih =>
    intro v fm hnt path out out2 h
    have haod : is_array_of_dicts v = false := hasTableF_aod_false fm v hnt
    cases fm with
    | zero => rw [hasTableF] at hnt; cases hnt
    | succ fm =>
      cases v with
      | obj kvs =>
        rw [collect_tables, if_neg (by simp [haod])] at h
        refine foldSome_id _ ?_ out out2 h
        intro kv hkv o o2 hstep
        obtain ⟨k2, v2⟩ := kv
        have hchild : hasTableF fm v2 = some false :=
          hasTableF_children_obj hnt (k2, v2) hkv
        have haod2 : is_array_of_dicts v2 = false := hasTableF_aod_false fm v2 hchild
        simp only [haod2] at hstep
        cases h2 : isContainer v2 with
        | true =>
          simp only [h2] at hstep
          exact ih v2 fm hchild _ o o2 (by simpa using hstep)
        | false =>
          simp only [h2] at hstep
          simp at hstep
          exact hstep.symm
      | arr xs =>
        rw [collect_tables, if_neg (by simp [haod])] at h
        rw [if_neg (by simp)] at h
        refine foldSome_id _ ?_ out out2 h
        intro p hp o o2 hstep
        obtain ⟨i, x⟩ := p
        have hx : x ∈ xs := by
          have h3 := List.mem_enum hp
          rw [h3.2]
          exact List.getElem_mem h3.1
        have hchild : hasTableF fm x = some false := hasTableF_children_arr hnt x hx
        have haod2 : is_array_of_dicts x = false := hasTableF_aod_false fm x hchild
        simp only [haod2] at hstep
        cases h2 : isContainer x with
        | true =>
          simp only [h2] at hstep
          exact ih x fm hchild _ o o2 (by simpa using hstep)
        | false =>
          simp only [h2] at hstep
          simp at hstep
          exact hstep.symm
      | null =>
        have h2 : (some out : Option Registry) = some out2 := h
        injection h2 with h3
        exact h3.symm
      | bool b =>
        have h2 : (some out : Option Registry) = some out2 := h
        injection h2 with h3
        exact h3.symm
      | num n =>
        have h2 : (some out : Option Registry) = some out2 := h
        injection h2 with h3
        exact h3.symm
      | str s =>
        have h2 : (some out : Option Registry) = some out2 := h
        injection h2 with h3
        exact h3.symm

theorem traverse_no_tables :
    ∀ (fuel : Nat) (v : Json) (fm : Nat), hasTableF fm v = some false →
      ∀ path st st2, traverse_and_collect fuel v path st = some st2 → st2 = st := by
  intro fuel
  induction fuel with
  | zero =>
    intro v fm _ path st st2 h
    rw [traverse_and_collect] at h
    cases h
  | succ fuel ih =>
    intro v fm hnt path st st2 h
    have haod : is_array_of_dicts v = false := hasTableF_aod_false fm v hnt
    cases fm with
    | zero => rw [hasTableF] at hnt; cases hnt
    | succ fm =>
      cases v with
      | obj kvs =>
        have hnone : ∀ kv ∈ kvs, is_array_of_dicts kv.2 = false := by
          intro kv hkv
          exact hasTableF_aod_false fm kv.2 (hasTableF_children_obj hnt kv hkv)
        have hnil : buildGroups kvs = [] := buildGroups_nil hnone
        rw [traverse_and_collect, if_neg (by simp [haod])] at h
        rw [hnil] at h
        have h4 : foldSome (fun s kv =>
            if is_array_of_dicts kv.2 then some s
            else if isContainer kv.2 then
              traverse_and_collect fuel kv.2 (path ++ [kv.1]) s
            else some s) st kvs = some st2 := h
        refine foldSome_id _ ?_ st st2 h4
        intro kv hkv s s2 hstep
        obtain ⟨k2, v2⟩ := kv
        have hchild : hasTableF fm v2 = some false :=
          hasTableF_children_obj hnt (k2, v2) hkv
        have haod2 : is_array_of_dicts v2 = false := hnone (k2, v2) hkv
        simp only [haod2] at hstep
        cases h2 : isContainer v2 with
        | true =>
          simp only [h2] at hstep
          exact ih v2 fm hchild _ s s2 (by simpa using hstep)
        | false =>
          simp only [h2] at hstep
          simp at hstep
          exact hstep.symm
      | arr xs =>
        rw [traverse_and_collect, if_neg (by simp [haod])] at h
        refine foldSome_id _ ?_ st st2 h
        intro item hitem s s2 hstep
        exact ih item fm (hasTableF_children_arr hnt item hitem) _ s s2 hstep
      | null =>
        have h2 : (some st : Option TState) = some st2 := h
        injection h2 with h3
        exact h3.symm
      | bool b =>
        have h2 : (some st : Option TState) = some st2 := h
        injection h2 with h3
        exact h3.symm
      | num n =>
        have h2 : (some st : Option TState) = some st2 := h
        injection h2 with h3
        exact h3.symm
      | str s3 =>
        have h2 : (some st : Option TState) = some st2 := h
        injection h2 with h3
        exact h3.symm

theorem goodDocF_succ_arr {fuel : Nat} {xs : List Json}
    (h : goodDocF (fuel + 1) (.arr xs) = some true) :
    (is_array_of_dicts (.arr xs) = true → (union_keys xs 500).card ≠ 0) ∧
    ∀ x ∈ xs, goodDocF fuel x = some true := by
  rw [goodDocF] at h
  obtain ⟨b, hb, hcond⟩ := Option.map_eq_some'.mp h
  have h1 := Bool.and_eq_true_iff.mp hcond
  constructor
  · intro haod
    have h2 := h1.1
    rw [if_pos haod] at h2
    simpa using h2
  · rw [h1.2] at hb
    exact optAll_true _ xs hb

theorem goodDocF_succ_obj {fuel : Nat} {kvs : Obj}
    (h : goodDocF (fuel + 1) (.obj kvs) = some true) :
    ∀ kv ∈ kvs, goodDocF fuel kv.2 = some true := by
  rw [goodDocF] at h
  exact optAll_true _ kvs h

theorem tableRowSumF_succ_arr {fuel : Nat} {xs : List Json} {t : Nat}
    (h : tableRowSumF (fuel + 1) (.arr xs) = some t) :
    (∀ x ∈ xs, ∃ u, tableRowSumF fuel x = some u) ∧
    t = (if is_array_of_dicts (.arr xs) then xs.length else 0) +
        (xs.map (fun x => (tableRowSumF fuel x).getD 0)).sum := by
  rw [tableRowSumF] at h
  obtain ⟨s, hs, hts⟩ := Option.map_eq_some'.mp h
  obtain ⟨h1, h2⟩ := optSum_map _ xs s hs
  exact ⟨h1, by rw [← hts, h2]⟩

theorem tableRowSumF_succ_obj {fuel : Nat} {kvs : Obj} {t : Nat}
    (h : tableRowSumF (fuel + 1) (.obj kvs) = some t) :
    (∀ kv ∈ kvs, ∃ u, tableRowSumF fuel kv.2 = some u) ∧
    t = (kvs.map (fun kv => (tableRowSumF fuel kv.2).getD 0)).sum := by
  rw [tableRowSumF] at h
  exact optSum_map (fun kv => tableRowSumF fuel kv.2) kvs t h

theorem foldl_append_length (items : List (String × List Json)) :
    ∀ (acc : List Json),
      (items.foldl (fun acc kr => acc ++ kr.2) acc).length =
        acc.length + (items.map (fun kr => kr.2.length)).sum := by
  induction items with
  | nil => intro acc; simp
  | cons kr rest ih =>
    intro acc
    rw [List.foldl_cons, ih]
    simp
    omega

theorem sum_map_add {α : Type} (f g : α → Nat) (L : List α) :
    (L.map (fun x => f x + g x)).sum = (L.map f).sum + (L.map g).sum := by
  induction L with
  | nil => simp
  | cons x rest ih =>
    simp [ih]
    omega

theorem sum_map_ite_filter {α : Type} (p : α → Bool) (f : α → Nat) (L : List α) :
    (L.map (fun x => if p x then f x else 0)).sum = ((L.filter p).map f).sum := by
  induction L with
  | nil => simp
  | cons x rest ih =>
    cases hx : p x with
    | true =>
      rw [List.map_cons, List.filter_cons_of_pos (by simp [hx])]
      simp [hx, ih]
    | false =>
      rw [List.map_cons, List.filter_cons_of_neg (by simp [hx])]
      simp [hx, ih]

/-- The rows contributed by one grouped array, plus the table rows found
inside those rows. -/
def memberRowSum (ft : Nat) (m : String × List Json) : Nat :=
  m.2.length + (m.2.map (fun item => (tableRowSumF ft item).getD 0)).sum

theorem tableRowSumF_scalar_getD (ft : Nat) (v : Json) (h : isScalarB v = true) :
    (tableRowSumF ft v).getD 0 = 0 := by
  cases ft with
  | zero => rfl
  | succ ft =>
    cases v with
    | null => rfl
    | bool b => rfl
    | num n => rfl
    | str s => rfl
    | arr xs => simp [isScalarB] at h
    | obj kvs => simp [isScalarB] at h


theorem scalar_of_not_container {v : Json} (h : isContainer v = false) : isScalarB v = true := by
  cases v with
  | null => rfl
  | bool b => rfl
  | num n => rfl
  | str s => rfl
  | arr xs => simp [isContainer] at h
  | obj kvs => simp [isContainer] at h

theorem rowsum_pointwise {ft : Nat} {kv : String × Json}
    (hex : ∃ u, tableRowSumF ft kv.2 = some u) :
    (tableRowSumF ft kv.2).getD 0 =
      (if is_array_of_dicts kv.2 then memberRowSum (ft - 1) (kv.1, jElems kv.2) else 0) +
      (if is_array_of_dicts kv.2 then 0 else (tableRowSumF ft kv.2).getD 0) := by
  obtain ⟨u, hu⟩ := hex
  cases haod : is_array_of_dicts kv.2 with
  | false => simp [haod]
  | true =>
    obtain ⟨xs, hxs, _, _⟩ := aod_shape haod
    have hftpos : ft ≠ 0 := by
      intro h0
      rw [h0, tableRowSumF] at hu
      cases hu
    obtain ⟨ftA, rfl⟩ : ∃ ftA, ft = ftA + 1 := ⟨ft - 1, by omega⟩
    rw [hxs] at hu haod ⊢
    obtain ⟨_, hval⟩ := tableRowSumF_succ_arr hu
    rw [if_pos haod] at hval
    rw [hu]
    have hje : jElems (Json.arr xs) = xs := rfl
    simp only [Option.getD_some, eq_self_iff_true, if_true, memberRowSum, hje,
      Nat.add_sub_cancel]
    simp
    omega

/-- The bookkeeping step for one schema group of `traverse_and_collect`: the
group's rows are appended under some name, and traversal recurses into every
row; the registry's row count grows by the group's `memberRowSum`. -/
theorem group_step_measure (n fuel ftA fgA : Nat)
    (ihitem : ∀ item, sizeOf item ≤ n → goodDocF fgA item = some true →
      ∀ u, tableRowSumF ftA item = some u →
      ∀ (p : List String) (s s2 : TState), traverse_and_collect fuel item p s = some s2 →
      sheetsRows s2.1 = sheetsRows s.1 + u)
    (g : Finset String × List (String × List Json))
    (hrows : ∀ kr ∈ g.2, ∀ item ∈ kr.2,
      sizeOf item ≤ n ∧ goodDocF fgA item = some true ∧
      ∃ u, tableRowSumF ftA item = some u)
    (name1 : String) (used2 : List String) (path2 : List String) (s s2 : TState)
    (hstep : foldSome (fun s3 kr =>
        foldSome (fun s4 item => traverse_and_collect fuel item path2 s4) s3 kr.2)
        (extendSheet s.1 name1 (g.2.foldl (fun acc kr => acc ++ kr.2) []), used2) g.2
        = some s2) :
    sheetsRows s2.1 = sheetsRows s.1 + (g.2.map (memberRowSum ftA)).sum := by
  have hinner : ∀ kr ∈ g.2, ∀ (s3 s4 : TState),
      foldSome (fun s4 item => traverse_and_collect fuel item path2 s4) s3 kr.2 = some s4 →
      sheetsRows s4.1 = sheetsRows s3.1 +
        (kr.2.map (fun item => (tableRowSumF ftA item).getD 0)).sum := by
    intro kr hkr s3 s4 hfold
    refine foldSome_measure (fun s : TState => sheetsRows s.1)
      (fun item => (tableRowSumF ftA item).getD 0) kr.2 ?_ _ _ hfold
    intro item hitem s5 s6 hstep2
    obtain ⟨hsz, hgood, u, hu⟩ := hrows kr hkr item hitem
    have := ihitem item hsz hgood u hu path2 s5 s6 hstep2
    show sheetsRows s6.1 = sheetsRows s5.1 + (tableRowSumF ftA item).getD 0
    rw [hu]
    simpa using this
  have hout := foldSome_measure (fun s : TState => sheetsRows s.1)
    (fun kr => (kr.2.map (fun item => (tableRowSumF ftA item).getD 0)).sum) g.2 hinner _ _ hstep
  have hext := extendSheet_rows s.1 name1 (g.2.foldl (fun acc kr => acc ++ kr.2) [])
  have hmerged : (g.2.foldl (fun acc kr => acc ++ kr.2) []).length =
      (g.2.map (fun kr => kr.2.length)).sum := by
    rw [foldl_append_length]
    simp
  have hout2 : sheetsRows s2.1 =
      sheetsRows (extendSheet s.1 name1 (g.2.foldl (fun acc kr => acc ++ kr.2) [])) +
      (g.2.map (fun kr =>
        (kr.2.map (fun item => (tableRowSumF ftA item).getD 0)).sum)).sum := hout
  have hmember : (g.2.map (memberRowSum ftA)).sum =
      (g.2.map (fun kr => kr.2.length)).sum +
      (g.2.map (fun kr =>
        (kr.2.map (fun item => (tableRowSumF ftA item).getD 0)).sum)).sum := by
    have he : g.2.map (memberRowSum ftA) = g.2.map (fun kr => kr.2.length +
        (kr.2.map (fun item => (tableRowSumF ftA item).getD 0)).sum) := rfl
    rw [he, sum_map_add]
  rw [hout2, hext, hmerged, hmember]
  omega

theorem traverse_rowcount_aux :
    ∀ (n : Nat) (v : Json), sizeOf v ≤ n →
      ∀ (fuel fg ft t : Nat) (path : List String) (st st2 : TState),
      goodDocF fg v = some true →
      tableRowSumF ft v = some t →
      traverse_and_collect fuel v path st = some st2 →
      sheetsRows st2.1 = sheetsRows st.1 + t := by
  intro n
  induction n with
  | zero =>
    intro v hv
    have := sizeOf_json_pos v
    omega
  | succ n ih =>
    intro v hv fuel fg ft t path st st2 hg ht h
    cases fuel with
    | zero => rw [traverse_and_collect] at h; cases h
    | succ fuel =>
    cases fg with
    | zero => rw [goodDocF] at hg; cases hg
    | succ fg =>
    cases ft with
    | zero => rw [tableRowSumF] at ht; cases ht
    | succ ft =>
    by_cases haod : is_array_of_dicts v = true
    · obtain ⟨xs, rfl, hne, hobjs⟩ := aod_shape haod
      obtain ⟨_, hgkids⟩ := goodDocF_succ_arr hg
      obtain ⟨htkids, htval⟩ := tableRowSumF_succ_arr ht
      rw [traverse_and_collect, if_pos haod] at h
      have hje : jElems (Json.arr xs) = xs := rfl
      rw [hje] at h
      have hsteps : ∀ x ∈ xs, ∀ (s s2 : TState),
          traverse_and_collect fuel x path s = some s2 →
          sheetsRows s2.1 = sheetsRows s.1 + (tableRowSumF ft x).getD 0 := by
        intro x hx s s2 hstep
        obtain ⟨u, hu⟩ := htkids x hx
        have hsz : sizeOf x ≤ n := by
          have := sizeOf_mem_arr hx
          omega
        have := ih x hsz fuel fg ft u path s s2 (hgkids x hx) hu hstep
        rw [hu]
        simpa using this
      have hmeas := foldSome_measure (fun s : TState => sheetsRows s.1)
        (fun x => (tableRowSumF ft x).getD 0) xs hsteps _ _ h
      have hext := extendSheet_rows st.1
        (uniquify_jt (sanitize_name ((path.getLast?).getD "root") 64) st.2).1 xs
      rw [if_pos haod] at htval
      have hmeas2 : sheetsRows st2.1 =
          sheetsRows (extendSheet st.1
            (uniquify_jt (sanitize_name ((path.getLast?).getD "root") 64) st.2).1 xs) +
          (xs.map (fun x => (tableRowSumF ft x).getD 0)).sum := hmeas
      rw [hmeas2, hext]
      omega
    · cases v with
      | obj kvs =>
        have hgkids := goodDocF_succ_obj hg
        obtain ⟨htkids, htval⟩ := tableRowSumF_succ_obj ht
        rw [traverse_and_collect, if_neg haod] at h
        rw [Option.bind_eq_some] at h
        obtain ⟨st1, hgrp, hstep3⟩ := h
        have hchildfact : ∀ kv ∈ kvs, is_array_of_dicts kv.2 = true →
            (∀ item ∈ jElems kv.2,
              sizeOf item ≤ n ∧ goodDocF (fg - 1) item = some true ∧
              ∃ u2, tableRowSumF (ft - 1) item = some u2) ∧
            (union_keys (jElems kv.2) 500).card ≠ 0 := by
          intro kv hkv hkaod
          obtain ⟨xs2, hxs2, _, _⟩ := aod_shape hkaod
          have hgood2 := hgkids kv hkv
          obtain ⟨u, hu⟩ := htkids kv hkv
          have hftpos : ft ≠ 0 := by
            intro h0
            rw [h0, hxs2, tableRowSumF] at hu
            cases hu
          have hfgpos : fg ≠ 0 := by
            intro h0
            rw [h0, goodDocF] at hgood2
            cases hgood2
          obtain ⟨ftA, hftA⟩ : ∃ ftA, ft = ftA + 1 := ⟨ft - 1, by omega⟩
          obtain ⟨fgA, hfgA⟩ : ∃ fgA, fg = fgA + 1 := ⟨fg - 1, by omega⟩
          rw [hxs2, hftA] at hu
          obtain ⟨hukids, _⟩ := tableRowSumF_succ_arr hu
          rw [hxs2, hfgA] at hgood2
          obtain ⟨hcond, hgood3⟩ := goodDocF_succ_arr hgood2
          have hje2 : jElems (Json.arr xs2) = xs2 := rfl
          constructor
          · intro item hitem
            rw [hxs2, hje2] at hitem
            refine ⟨?_, ?_, ?_⟩
            · have h1 : sizeOf item < sizeOf kv.2 := by
                rw [hxs2]
                exact sizeOf_mem_arr hitem
              have h2 : sizeOf kv.2 < sizeOf (Json.obj kvs) :=
                sizeOf_mem_obj (show (kv.1, kv.2) ∈ kvs by simpa using hkv)
              omega
            · rw [hfgA]
              simp only [Nat.add_sub_cancel]
              exact hgood3 item hitem
            · rw [hftA]
              simp only [Nat.add_sub_cancel]
              exact hukids item hitem
          · rw [hxs2, hje2]
            exact hcond (hxs2 ▸ hkaod)
        have hmeasA : sheetsRows st1.1 = sheetsRows st.1 +
            ((buildGroups kvs).map (fun g => (g.2.map (memberRowSum (ft - 1))).sum)).sum := by
          refine foldSome_measure (fun s : TState => sheetsRows s.1)
            (fun g => (g.2.map (memberRowSum (ft - 1))).sum) (buildGroups kvs) ?_ st st1 hgrp
          intro g hgmem s s2 hstep
          show sheetsRows s2.1 = sheetsRows s.1 + (g.2.map (memberRowSum (ft - 1))).sum
          refine group_step_measure n fuel (ft - 1) (fg - 1)
            (fun item hsz hgood u2 hu2 p s3 s4 hstep2 =>
              ih item hsz fuel (fg - 1) (ft - 1) u2 p s3 s4 hgood hu2 hstep2)
            g ?_ _ _ _ s s2 hstep
          intro kr hkr item hitem
          obtain ⟨v2, hv2mem, hv2aod, hv2el⟩ := memG_buildGroups ⟨g, hgmem, hkr⟩
          have hf := (hchildfact (kr.1, v2) hv2mem hv2aod).1 item
            (by rw [show jElems (kr.1, v2).2 = kr.2 from hv2el]; exact hitem)
          exact hf
        have hcard : ∀ kv ∈ kvs, is_array_of_dicts kv.2 = true →
            (union_keys (jElems kv.2) 500).card ≠ 0 :=
          fun kv hkv hka => (hchildfact kv hkv hka).2
        have hA3 : sheetsRows st1.1 = sheetsRows st.1 +
            itemsSum (memberRowSum (ft - 1)) (buildGroups kvs) := hmeasA
        rw [buildGroups_itemsSum (memberRowSum (ft - 1)) kvs hcard] at hA3
        have hstep3meas : sheetsRows st2.1 = sheetsRows st1.1 +
            (kvs.map (fun kv => if is_array_of_dicts kv.2 then 0
              else (tableRowSumF ft kv.2).getD 0)).sum := by
          refine foldSome_measure (fun s : TState => sheetsRows s.1)
            (fun kv => if is_array_of_dicts kv.2 then 0
              else (tableRowSumF ft kv.2).getD 0) kvs ?_ st1 st2 hstep3
          intro kv hkv s s2 hstep
          show sheetsRows s2.1 = sheetsRows s.1 +
            (if is_array_of_dicts kv.2 then 0 else (tableRowSumF ft kv.2).getD 0)
          have h5 : (if is_array_of_dicts kv.2 then some s
              else if isContainer kv.2 then
                traverse_and_collect fuel kv.2 (path ++ [kv.1]) s
              else some s) = some s2 := hstep
          by_cases hkaod : is_array_of_dicts kv.2 = true
          · rw [if_pos hkaod] at h5
            injection h5 with h6
            rw [if_pos hkaod, ← h6]
            omega
          · rw [if_neg hkaod] at h5
            rw [if_neg hkaod]
            by_cases hcont : isContainer kv.2 = true
            · rw [if_pos hcont] at h5
              obtain ⟨u, hu⟩ := htkids kv hkv
              have hsz : sizeOf kv.2 ≤ n := by
                have h6 : sizeOf kv.2 < sizeOf (Json.obj kvs) :=
                  sizeOf_mem_obj (show (kv.1, kv.2) ∈ kvs by simpa using hkv)
                omega
              have := ih kv.2 hsz fuel fg ft u (path ++ [kv.1]) s s2 (hgkids kv hkv) hu h5
              rw [hu]
              simpa using this
            · rw [if_neg hcont] at h5
              injection h5 with h6
              have h7 := tableRowSumF_scalar_getD ft kv.2
                (scalar_of_not_container (by simpa using hcont))
              rw [h7, ← h6]
              omega
        have hD : t = ((kvs.filter (fun kv => is_array_of_dicts kv.2)).map
            (fun kv => memberRowSum (ft - 1) (kv.1, jElems kv.2))).sum +
            (kvs.map (fun kv => if is_array_of_dicts kv.2 then 0
              else (tableRowSumF ft kv.2).getD 0)).sum := by
          rw [htval]
          rw [List.map_congr_left (fun kv hkv => rowsum_pointwise (htkids kv hkv))]
          rw [sum_map_add]
          congr 1
          exact sum_map_ite_filter (fun kv => is_array_of_dicts kv.2)
            (fun kv => memberRowSum (ft - 1) (kv.1, jElems kv.2)) kvs
        rw [hstep3meas, hA3, hD]
        omega
      | arr xs =>
        obtain ⟨_, hgkids⟩ := goodDocF_succ_arr hg
        obtain ⟨htkids, htval⟩ := tableRowSumF_succ_arr ht
        rw [traverse_and_collect, if_neg haod] at h
        have hsteps : ∀ x ∈ xs, ∀ (s s2 : TState),
            traverse_and_collect fuel x path s = some s2 →
            sheetsRows s2.1 = sheetsRows s.1 + (tableRowSumF ft x).getD 0 := by
          intro x hx s s2 hstep
          obtain ⟨u, hu⟩ := htkids x hx
          have hsz : sizeOf x ≤ n := by
            have := sizeOf_mem_arr hx
            omega
          have := ih x hsz fuel fg ft u path s s2 (hgkids x hx) hu hstep
          rw [hu]
          simpa using this
        have hmeas := foldSome_measure (fun s : TState => sheetsRows s.1)
          (fun x => (tableRowSumF ft x).getD 0) xs hsteps _ _ h
        have hmeas2 : sheetsRows st2.1 = sheetsRows st.1 +
            (xs.map (fun x => (tableRowSumF ft x).getD 0)).sum := hmeas
        rw [if_neg haod] at htval
        omega
      | null =>
        have h2 : (some st : Option TState) = some st2 := h
        have ht2 : (some 0 : Option Nat) = some t := ht
        injection h2 with h3
        injection ht2 with ht3
        rw [← h3, ← ht3]
        omega
      | bool b =>
        have h2 : (some st : Option TState) = some st2 := h
        have ht2 : (some 0 : Option Nat) = some t := ht
        injection h2 with h3
        injection ht2 with ht3
        rw [← h3, ← ht3]
        omega
      | num n2 =>
        have h2 : (some st : Option TState) = some st2 := h
        have ht2 : (some 0 : Option Nat) = some t := ht
        injection h2 with h3
        injection ht2 with ht3
        rw [← h3, ← ht3]
        omega
      | str s3 =>
        have h2 : (some st : Option TState) = some st2 := h
        have ht2 : (some 0 : Option Nat) = some t := ht
        injection h2 with h3
        injection ht2 with ht3
        rw [← h3, ← ht3]
        omega

/-- A character that the sheet-naming regex `([^\.\[\]]+)(?:\[\d+\])?$` treats
as a separator: `.`, `[` or `]`. -/
def sepChar (c : Char) : Bool := c = '.' || c = '[' || c = ']'

/-- Strip one trailing `[digits]` group, working on the reversed character
list; `none` when the string does not end in such a group. -/
def stripIdxRev : List Char → Option (List Char)
  | [] => none
  | c :: rest =>
    if c = ']' then
      let ds := rest.takeWhile Char.isDigit
      if ds.isEmpty then none
      else if (rest.drop ds.length).head? = some '[' then some ((rest.drop ds.length).tail)
      else none
    else none

/-- The single match of `re.findall(r'([^\.\[\]]+)(?:\[\d+\])?$', raw)` used
by `load_json_to_excel.py` for last-segment naming: optionally strip one
trailing `[digits]` group, then take the final maximal run of non-separator
characters; `none` when that run is empty (no match). -/
def lastSegMatch (raw : String) : Option String :=
  let rcs := (stripIdxRev raw.data.reverse).getD raw.data.reverse
  let r := rcs.takeWhile (fun c => !sepChar c)
  if r.isEmpty then none else some (String.mk r.reverse)

/-- Embedding of the sheet-base-name computation of `load_json_to_excel.py`
in `--sheet-naming last` mode: if the raw path contains `".Result"` the base
is `"Result"`; otherwise the regex match above, falling back to the whole
path when there is no match. -/
def lastBaseXl (raw : String) : String :=
  if subS ".Result" raw then "Result" else (lastSegMatch raw).getD raw

/-- Rendering of an optional trailing index segment `[n]` of a discovery
path. -/
def idxStr : Option Nat → String
  | none => ""
  | some n => "[" ++ natToDec n ++ "]"

/-- The complete sheet-name derivation of `load_json_to_excel.py` for one
table in last-segment mode: base name from the path, sanitized, uniquified. -/
def sheet_name_xl (raw : String) (used : List String) : String × List String :=
  uniquify_xl (sanitize_sheet_name (lastBaseXl raw)) used

/-- A cell of a materialized table: a value or the missing marker (NaN). -/
inductive Cell where
  | nan : Cell
  | val (v : Json) : Cell

/-- A rectangular table: column names and row-major cells. -/
structure DataFrame where
  cols : List String
  cells : List (List Cell)

/-- First-occurrence deduplication, as pandas orders the union of row keys. -/
def firstDedup {α : Type} [DecidableEq α] (l : List α) : List α :=
  l.foldl (fun acc k => if k ∈ acc then acc else acc ++ [k]) []

theorem mem_firstDedup_aux {α : Type} [DecidableEq α] :
    ∀ (l acc : List α) (x : α),
      x ∈ l.foldl (fun acc k => if k ∈ acc then acc else acc ++ [k]) acc ↔
      x ∈ acc ∨ x ∈ l := by
  intro l
  induction l with
  | nil => intro acc x; simp
  | cons k rest ih =>
    intro acc x
    rw [List.foldl_cons]
    by_cases hk : k ∈ acc
    · rw [if_pos hk, ih]
      constructor
      · intro h
        rcases h with h | h
        · exact Or.inl h
        · exact Or.inr (by simp [h])
      · intro h
        rcases h with h | h
        · exact Or.inl h
        · rcases List.mem_cons.mp h with rfl | h2
          · exact Or.inl hk
          · exact Or.inr h2
    · rw [if_neg hk, ih]
      simp [List.mem_append]
      tauto
  
theorem mem_firstDedup {α : Type} [DecidableEq α] (l : List α) (x : α) :
    x ∈ firstDedup l ↔ x ∈ l := by
  rw [firstDedup, mem_firstDedup_aux]
  simp

/-- The value pandas places in column `c` for the row record `r`: the bound
value if the key is present, the missing marker otherwise. -/
def cellOf (r : Obj) (c : String) : Cell :=
  match r.find? (fun kv => kv.1 == c) with
  | some kv => Cell.val kv.2
  | none => Cell.nan

/-- Model of `pandas.DataFrame(list_of_dicts)` per its documented behaviour:
the column set is the union of the rows' keys in first-appearance order, and
each row yields one cell per column, `NaN` where the key is absent.  Nested
object or array values are stored as opaque cell values — pandas does not
expand them. -/
def pdDataFrame (rows : List Obj) : DataFrame :=
  let cols := firstDedup (rows.foldl (fun acc r => acc ++ r.map Prod.fst) [])
  ⟨cols, rows.map (fun r => cols.map (fun c => cellOf r c))⟩

/-- Embedding of `rows_to_dataframe` from `json_to_table.py` (equal to the
all-dicts and empty branches of the `load_json_to_excel.py` version, the only
branches reachable for discovered tables): an empty row list gives an empty
table, otherwise `pd.DataFrame(rows)`. -/
def rows_to_dataframe (rows : List Obj) : DataFrame :=
  if rows.isEmpty then ⟨[], []⟩ else pdDataFrame rows

theorem mem_foldl_append {α β : Type} (f : β → List α) :
    ∀ (L : List β) (acc : List α) (x : α),
      x ∈ L.foldl (fun acc b => acc ++ f b) acc ↔ x ∈ acc ∨ ∃ b ∈ L, x ∈ f b := by
  intro L
  induction L with
  | nil => intro acc x; simp
  | cons b rest ih =>
    intro acc x
    rw [List.foldl_cons, ih]
    simp [List.mem_append]
    tauto

theorem pdDataFrame_cols (rows : List Obj) (c : String) :
    c ∈ (pdDataFrame rows).cols ↔ ∃ r ∈ rows, c ∈ r.map Prod.fst := by
  show c ∈ firstDedup (rows.foldl (fun acc r => acc ++ r.map Prod.fst) []) ↔ _
  rw [mem_firstDedup, mem_foldl_append]
  simp

theorem takeWhile_append_all {α : Type} (p : α → Bool) :
    ∀ (l1 l2 : List α), (∀ c ∈ l1, p c = true) →
      (l1 ++ l2).takeWhile p = l1 ++ l2.takeWhile p := by
  intro l1
  induction l1 with
  | nil => intro l2 _; rfl
  | cons a t ih =>
    intro l2 h
    rw [List.cons_append, List.takeWhile_cons_of_pos (h a (by simp)), ih l2
      (fun c hc => h c (by simp [hc]))]
    rfl

theorem takeWhile_head_false {α : Type} (p : α → Bool) (l : List α)
    (h : ∀ c, l.head? = some c → p c = false) : l.takeWhile p = [] := by
  cases l with
  | nil => rfl
  | cons a t =>
    refine List.takeWhile_cons_of_neg ?_
    rw [h a rfl]
    simp

theorem lastBaseXl_seg (q s : String) (idx : Option Nat)
    (hs : s.data ≠ [])
    (hsc : ∀ c ∈ s.data, sepChar c = false)
    (hq : q.data = [] ∨ ∃ c, q.data.getLast? = some c ∧ sepChar c = true)
    (hnr : subS ".Result" (q ++ s ++ idxStr idx) = false) :
    lastBaseXl (q ++ s ++ idxStr idx) = s := by
  rw [lastBaseXl, if_neg (by simp [hnr])]
  suffices hm : lastSegMatch (q ++ s ++ idxStr idx) = some s by
    rw [hm]
    rfl
  have hstrip : (stripIdxRev ((q ++ s ++ idxStr idx).data.reverse)).getD
      ((q ++ s ++ idxStr idx).data.reverse) = s.data.reverse ++ q.data.reverse := by
    cases idx with
    | none =>
      have h1 : (q ++ s ++ idxStr none).data.reverse =
          s.data.reverse ++ q.data.reverse := by
        rw [String.data_append, String.data_append]
        have h2 : (idxStr none).data = [] := rfl
        rw [h2, List.append_nil, List.reverse_append]
      rw [h1]
      obtain ⟨c, t, hct⟩ : ∃ c t, s.data.reverse = c :: t := by
        cases hsr : s.data.reverse with
        | nil =>
          exact absurd (by simpa using congrArg List.reverse hsr) hs
        | cons c t => exact ⟨c, t, rfl⟩
      have hcmem : c ∈ s.data := by
        rw [← List.mem_reverse, hct]
        simp
      have hcne : ¬(c = ']') := by
        intro hc
        have := hsc c hcmem
        rw [hc] at this
        simp [sepChar] at this
      rw [hct, List.cons_append]
      rw [stripIdxRev, if_neg hcne]
      rw [Option.getD_none, ← List.cons_append, ← hct]
    | some n =>
      have h1 : (q ++ s ++ idxStr (some n)).data.reverse =
          ']' :: ((natToDec n).data.reverse ++
            ('[' :: (s.data.reverse ++ q.data.reverse))) := by
        rw [String.data_append, String.data_append]
        have h2 : (idxStr (some n)).data = '[' :: (natToDec n).data ++ [']'] := by
          show ("[" ++ natToDec n ++ "]").data = _
          rw [String.data_append, String.data_append]
          rfl
        rw [h2]
        simp [List.reverse_append]
      rw [h1, stripIdxRev, if_pos rfl]
      have hds : ((natToDec n).data.reverse ++
          ('[' :: (s.data.reverse ++ q.data.reverse))).takeWhile Char.isDigit =
          (natToDec n).data.reverse := by
        rw [takeWhile_append_all _ _ _
          (fun c hc => natToDec_data_isDigit n c (List.mem_reverse.mp hc))]
        rw [List.takeWhile_cons_of_neg (by decide)]
        rw [List.append_nil]
      simp only [hds]
      rw [if_neg (by
        simp only [List.isEmpty_iff]
        intro hcon
        exact natToDec_data_ne_nil n (by simpa using congrArg List.reverse hcon))]
      have hdrop : (((natToDec n).data.reverse ++
          ('[' :: (s.data.reverse ++ q.data.reverse)))).drop
            ((natToDec n).data.reverse.length) =
          '[' :: (s.data.reverse ++ q.data.reverse) := List.drop_left _ _
      have hlen : ((natToDec n).data.reverse).length =
          ((natToDec n).data.reverse).length := rfl
      rw [hdrop]
      simp
  rw [lastSegMatch]
  rw [hstrip]
  have htw : (s.data.reverse ++ q.data.reverse).takeWhile (fun c => !sepChar c) =
      s.data.reverse := by
    rw [takeWhile_append_all _ _ _
      (by intro c hc; simp [hsc c (List.mem_reverse.mp hc)])]
    have hq2 : q.data.reverse.takeWhile (fun c => !sepChar c) = [] := by
      rcases hq with hq | ⟨c, hlast, hsep⟩
      · rw [hq]
        rfl
      · refine takeWhile_head_false _ _ ?_
        intro c2 hc2
        rw [List.head?_reverse, hlast] at hc2
        injection hc2 with hc3
        rw [← hc3]
        simp [hsep]
    rw [hq2, List.append_nil]
  rw [htw]
  rw [if_neg (by
    simp only [List.isEmpty_iff]
    intro hcon
    exact hs (by simpa using congrArg List.reverse hcon))]
  rw [List.reverse_reverse]

/-- Specification-side description of the schema grouping: the distinct
non-empty sampled schemas of the node's array-of-dicts children, in order of
first appearance. -/
def schemaList (kvs : Obj) : List (Finset String) :=
  firstDedup (kvs.filterMap (fun kv =>
    if is_array_of_dicts kv.2 = true ∧ (union_keys (jElems kv.2) 500).card ≠ 0
    then some (union_keys (jElems kv.2) 500) else none))

/-- Specification-side description of one group: the array-of-dicts children
whose sampled schema is `sc`, in field-iteration order. -/
def membersWith (kvs : Obj) (sc : Finset String) : List (String × List Json) :=
  kvs.filterMap (fun kv =>
    if is_array_of_dicts kv.2 = true ∧ union_keys (jElems kv.2) 500 = sc ∧
       (union_keys (jElems kv.2) 500).card ≠ 0
    then some (kv.1, jElems kv.2) else none)

/-- Specification-side description of the whole grouping pass: one group per
distinct non-empty sampled schema, carrying its member arrays. -/
def specGroups (kvs : Obj) : Groups :=
  (schemaList kvs).map (fun sc => (sc, membersWith kvs sc))

theorem nodup_firstDedup {α : Type} [DecidableEq α] (l : List α) :
    (firstDedup l).Nodup := by
  suffices haux : ∀ (l acc : List α), acc.Nodup →
      (l.foldl (fun acc k => if k ∈ acc then acc else acc ++ [k]) acc).Nodup by
    exact haux l [] (by simp)
  intro l
  induction l with
  | nil => intro acc h; exact h
  | cons k rest ih =>
    intro acc h
    rw [List.foldl_cons]
    by_cases hk : k ∈ acc
    · rw [if_pos hk]
      exact ih acc h
    · rw [if_neg hk]
      refine ih _ ?_
      rw [List.nodup_append]
      refine ⟨h, by simp, ?_⟩
      intro x hx hx2
      simp at hx2
      rw [hx2] at hx
      exact hk hx

theorem insertGroup_not_mem {gs : Groups} {sc : Finset String}
    {m : String × List Json} (h : ∀ g ∈ gs, g.1 ≠ sc) :
    insertGroup gs sc m = gs ++ [(sc, [m])] := by
  induction gs with
  | nil => rfl
  | cons g rest ih =>
    obtain ⟨s2, items⟩ := g
    rw [insertGroup, if_neg (by exact h (s2, items) (by simp)), ih
      (fun g hg => h g (by simp [hg]))]
    rfl

theorem insertGroup_map {ss : List (Finset String)}
    {F : Finset String → List (String × List Json)} {sc : Finset String}
    {m : String × List Json} (hnd : ss.Nodup) (hin : sc ∈ ss) :
    insertGroup (ss.map (fun s2 => (s2, F s2))) sc m =
      ss.map (fun s2 => (s2, if s2 = sc then F s2 ++ [m] else F s2)) := by
  induction ss with
  | nil => simp at hin
  | cons s2 rest ih =>
    rw [List.map_cons, List.map_cons, insertGroup]
    by_cases hs2 : s2 = sc
    · rw [if_pos hs2]
      have hnotin : sc ∉ rest := by
        rw [← hs2]
        exact (List.nodup_cons.mp hnd).1
      have hrest : rest.map (fun s3 => (s3, if s3 = sc then F s3 ++ [m] else F s3)) =
          rest.map (fun s3 => (s3, F s3)) := by
        refine List.map_congr_left ?_
        intro s3 hs3
        rw [if_neg (by intro hc; rw [hc] at hs3; exact hnotin hs3)]
      rw [hrest, if_pos hs2]
    · rw [if_neg hs2, if_neg hs2]
      have hin2 : sc ∈ rest := by
        rcases List.mem_cons.mp hin with h2 | h2
        · exact absurd h2.symm hs2
        · exact h2
      rw [ih (List.nodup_cons.mp hnd).2 hin2]

theorem firstDedup_append_singleton {α : Type} [DecidableEq α] (l : List α) (x : α) :
    firstDedup (l ++ [x]) =
      if x ∈ firstDedup l then firstDedup l else firstDedup l ++ [x] := by
  rw [firstDedup, List.foldl_append]
  rfl

theorem membersWith_nil_of_not_mem {kvs : Obj} {sc : Finset String}
    (h : sc ∉ schemaList kvs) : membersWith kvs sc = [] := by
  rw [membersWith, List.filterMap_eq_nil_iff]
  intro kv hkv
  by_cases hc : is_array_of_dicts kv.2 = true ∧ union_keys (jElems kv.2) 500 = sc ∧
      (union_keys (jElems kv.2) 500).card ≠ 0
  · exfalso
    apply h
    rw [schemaList, mem_firstDedup, List.mem_filterMap]
    refine ⟨kv, hkv, ?_⟩
    rw [if_pos ⟨hc.1, hc.2.2⟩, hc.2.1]
  · rw [if_neg hc]

theorem buildGroups_eq_specGroups (kvs : Obj) : buildGroups kvs = specGroups kvs := by
  induction kvs using List.reverseRecOn with
  | nil => rfl
  | append_singleton l kv ih =>
    have hb : buildGroups (l ++ [kv]) =
        (if is_array_of_dicts kv.2 then
          if (union_keys (jElems kv.2) 500).card == 0 then buildGroups l
          else insertGroup (buildGroups l) (union_keys (jElems kv.2) 500)
            (kv.1, jElems kv.2)
        else buildGroups l) := by
      rw [buildGroups, buildGroups, List.foldl_append]
      rfl
    have hschema : schemaList (l ++ [kv]) =
        if is_array_of_dicts kv.2 = true ∧ (union_keys (jElems kv.2) 500).card ≠ 0
        then (if union_keys (jElems kv.2) 500 ∈ schemaList l then schemaList l
          else schemaList l ++ [union_keys (jElems kv.2) 500])
        else schemaList l := by
      rw [schemaList, schemaList, List.filterMap_append]
      by_cases hc : is_array_of_dicts kv.2 = true ∧
          (union_keys (jElems kv.2) 500).card ≠ 0
      · rw [if_pos hc]
        have h1 : List.filterMap (fun kv =>
            if is_array_of_dicts kv.2 = true ∧ (union_keys (jElems kv.2) 500).card ≠ 0
            then some (union_keys (jElems kv.2) 500) else none) [kv] =
            [union_keys (jElems kv.2) 500] := by
          rw [List.filterMap_cons, if_pos hc]
          rfl
        rw [h1, firstDedup_append_singleton]
      · rw [if_neg hc]
        have h1 : List.filterMap (fun kv =>
            if is_array_of_dicts kv.2 = true ∧ (union_keys (jElems kv.2) 500).card ≠ 0
            then some (union_keys (jElems kv.2) 500) else none) [kv] = [] := by
          rw [List.filterMap_cons, if_neg hc]
          rfl
        rw [h1, List.append_nil]
    have hmembers : ∀ sc, membersWith (l ++ [kv]) sc =
        membersWith l sc ++
          (if is_array_of_dicts kv.2 = true ∧ union_keys (jElems kv.2) 500 = sc ∧
              (union_keys (jElems kv.2) 500).card ≠ 0
            then [(kv.1, jElems kv.2)] else []) := by
      intro sc
      rw [membersWith, membersWith, List.filterMap_append]
      congr 1
      by_cases hc : is_array_of_dicts kv.2 = true ∧ union_keys (jElems kv.2) 500 = sc ∧
          (union_keys (jElems kv.2) 500).card ≠ 0
      · rw [List.filterMap_cons, if_pos hc, if_pos hc]
        rfl
      · rw [List.filterMap_cons, if_neg hc, if_neg hc]
        rfl
    rw [hb]
    by_cases haod : is_array_of_dicts kv.2 = true
    · by_cases hcard : (union_keys (jElems kv.2) 500).card = 0
      · rw [if_pos haod, if_pos (by simpa using hcard)]
        have hrhs : specGroups (l ++ [kv]) = specGroups l := by
          rw [specGroups, specGroups, hschema,
            if_neg (by intro hc; exact hc.2 hcard)]
          refine List.map_congr_left ?_
          intro sc hsc
          rw [hmembers sc, if_neg (by intro hc; exact hc.2.2 hcard), List.append_nil]
        rw [hrhs]
        exact ih
      · rw [if_pos haod, if_neg (by simpa using hcard)]
        by_cases hin : union_keys (jElems kv.2) 500 ∈ schemaList l
        · have hrhs : specGroups (l ++ [kv]) =
              (schemaList l).map (fun sc =>
                (sc, if sc = union_keys (jElems kv.2) 500
                  then membersWith l sc ++ [(kv.1, jElems kv.2)]
                  else membersWith l sc)) := by
            rw [specGroups, hschema, if_pos ⟨haod, hcard⟩, if_pos hin]
            refine List.map_congr_left ?_
            intro sc hsc
            rw [hmembers sc]
            by_cases hsc2 : sc = union_keys (jElems kv.2) 500
            · rw [if_pos hsc2, if_pos ⟨haod, hsc2.symm, hcard⟩]
            · rw [if_neg hsc2, if_neg (fun hc => hsc2 hc.2.1.symm), List.append_nil]
          rw [hrhs, ih, specGroups]
          exact insertGroup_map (nodup_firstDedup _) hin
        · have hrhs : specGroups (l ++ [kv]) =
              (schemaList l).map (fun sc => (sc, membersWith l sc)) ++
                [(union_keys (jElems kv.2) 500, [(kv.1, jElems kv.2)])] := by
            rw [specGroups, hschema, if_pos ⟨haod, hcard⟩, if_neg hin, List.map_append]
            congr 1
            · refine List.map_congr_left ?_
              intro sc hsc
              rw [hmembers sc, if_neg (by
                intro hc
                exact hin (hc.2.1 ▸ hsc)), List.append_nil]
            · rw [List.map_cons, List.map_nil]
              rw [hmembers, if_pos ⟨haod, rfl, hcard⟩]
              rw [membersWith_nil_of_not_mem hin]
              rfl
          rw [hrhs, ih, specGroups]
          refine insertGroup_not_mem ?_
          intro g hg
          rw [List.mem_map] at hg
          obtain ⟨sc, hsc, hsceq⟩ := hg
          rw [← hsceq]
          intro hc
          exact hin (hc ▸ hsc)
    · rw [if_neg haod]
      have hrhs : specGroups (l ++ [kv]) = specGroups l := by
        rw [specGroups, specGroups, hschema, if_neg (by intro hc; exact haod hc.1)]
        refine List.map_congr_left ?_
        intro sc hsc
        rw [hmembers sc, if_neg (by intro hc; exact haod hc.1), List.append_nil]
      rw [hrhs]
      exact ih

/-- A row that is an object all of whose field values are scalars. -/
def flatRow (v : Json) : Bool :=
  match v with
  | .obj kvs => kvs.all (fun kv => isScalarB kv.2)
  | _ => false

/-- A dict child that is either an array-of-dicts with flat rows, or a
scalar: traversal below such a child registers nothing further. -/
def flatChild (v : Json) : Bool :=
  if is_array_of_dicts v then (jElems v).all flatRow else isScalarB v

/-- Specification-side description of what registering one schema group does
to the traversal state: name the group by its single child key, or the keys
joined with `+`, prefixed by the parent path segment unless already so
prefixed; sanitize and uniquify the name; append the concatenation of the
member arrays' rows under it. -/
def emitGroupSpec (path : List String) (st : TState)
    (g : Finset String × List (String × List Json)) : TState :=
  let ks := g.2.map Prod.fst
  let base0 := match ks with
    | [k] => k
    | _ => String.intercalate "+" ks
  let ph := (path.getLast?).getD ""
  let base1 := if ph ≠ "" ∧ startsWithPy base0 (ph ++ ".") = false
    then ph ++ "." ++ base0 else base0
  let nm := uniquify_jt (sanitize_name base1 64) st.2
  (extendSheet st.1 nm.1 ((g.2.map Prod.snd).flatten), nm.2)

theorem aod_scalar {v : Json} (h : isScalarB v = true) :
    is_array_of_dicts v = false := by
  cases v with
  | null => rfl
  | bool b => rfl
  | num n => rfl
  | str s => rfl
  | arr xs => simp [isScalarB] at h
  | obj kvs => simp [isScalarB] at h

theorem container_scalar {v : Json} (h : isScalarB v = true) :
    isContainer v = false := by
  cases v with
  | null => rfl
  | bool b => rfl
  | num n => rfl
  | str s => rfl
  | arr xs => simp [isScalarB] at h
  | obj kvs => simp [isScalarB] at h

theorem foldSome_id_eq {α β : Type} {f : β → α → Option β} {g : β → α → β} :
    ∀ (as : List α), (∀ a ∈ as, ∀ b b2, f b a = some b2 → b2 = g b a) →
      ∀ b b2, foldSome f b as = some b2 → b2 = as.foldl g b := by
  intro as
  induction as with
  | nil =>
    intro _ b b2 h
    rw [foldSome] at h
    cases h
    rfl
  | cons a rest ih =>
    intro h b b2 hfold
    rw [foldSome] at hfold
    cases hfa : f b a with
    | none => rw [hfa] at hfold; cases hfold
    | some b3 =>
      rw [hfa] at hfold
      have h1 : b3 = g b a := h a (by simp) b b3 hfa
      rw [List.foldl_cons, ← h1]
      exact ih (fun x hx => h x (by simp [hx])) b3 b2 hfold

theorem flat_traverse_id :
    ∀ (fuel : Nat) (item : Json), flatRow item = true →
      ∀ (p : List String) (s s2 : TState),
        traverse_and_collect fuel item p s = some s2 → s2 = s := by
  intro fuel item hflat p s s2 h
  cases fuel with
  | zero => rw [traverse_and_collect] at h; cases h
  | succ fuel =>
    cases item with
    | obj kvs =>
      have hscal : ∀ kv ∈ kvs, isScalarB kv.2 = true := by
        rw [flatRow] at hflat
        simpa [List.all_eq_true] using hflat
      have hnone : ∀ kv ∈ kvs, is_array_of_dicts kv.2 = false :=
        fun kv hkv => aod_scalar (hscal kv hkv)
      have hnil : buildGroups kvs = [] := buildGroups_nil hnone
      rw [traverse_and_collect, if_neg (by simp [is_array_of_dicts])] at h
      rw [hnil] at h
      have h4 : foldSome (fun s kv =>
          if is_array_of_dicts kv.2 then some s
          else if isContainer kv.2 then
            traverse_and_collect fuel kv.2 (p ++ [kv.1]) s
          else some s) s kvs = some s2 := h
      refine foldSome_id _ ?_ s s2 h4
      intro kv hkv s3 s4 hstep
      rw [if_neg (by simp [hnone kv hkv]),
        if_neg (by simp [container_scalar (hscal kv hkv)])] at hstep
      injection hstep with h5
      exact h5.symm
    | null => simp [flatRow] at hflat
    | bool b => simp [flatRow] at hflat
    | num n => simp [flatRow] at hflat
    | str s3 => simp [flatRow] at hflat
    | arr xs => simp [flatRow] at hflat

theorem foldl_append_eq_flatten :
    ∀ (items : List (String × List Json)) (acc : List Json),
      items.foldl (fun acc kr => acc ++ kr.2) acc = acc ++ (items.map Prod.snd).flatten := by
  intro items
  induction items with
  | nil => intro acc; simp
  | cons kr rest ih =>
    intro acc
    rw [List.foldl_cons, ih]
    simp

theorem traverse_flat_dict (fuel : Nat) (kvs : Obj) (path : List String)
    (st st2 : TState)
    (hflat : ∀ kv ∈ kvs, flatChild kv.2 = true)
    (h : traverse_and_collect fuel (Json.obj kvs) path st = some st2) :
    st2 = (buildGroups kvs).foldl (emitGroupSpec path) st := by
  cases fuel with
  | zero => rw [traverse_and_collect] at h; cases h
  | succ fuel =>
    rw [traverse_and_collect, if_neg (by simp [is_array_of_dicts])] at h
    rw [Option.bind_eq_some] at h
    obtain ⟨st1, hgrp, hstep3⟩ := h
    have hrowsflat : ∀ g ∈ buildGroups kvs, ∀ kr ∈ g.2, ∀ item ∈ kr.2,
        flatRow item = true := by
      intro g hgmem kr hkr item hitem
      obtain ⟨v2, hv2mem, hv2aod, hv2el⟩ := memG_buildGroups ⟨g, hgmem, hkr⟩
      have hfc := hflat (kr.1, v2) hv2mem
      rw [flatChild, if_pos hv2aod] at hfc
      rw [List.all_eq_true] at hfc
      refine hfc item ?_
      rw [show jElems (kr.1, v2).2 = kr.2 from hv2el]
      exact hitem
    have hgfold : st1 = (buildGroups kvs).foldl (emitGroupSpec path) st := by
      refine foldSome_id_eq (buildGroups kvs) ?_ st st1 hgrp
      intro g hgmem s s2 hstep
      have hinner : ∀ kr ∈ g.2, ∀ (s3 s4 : TState),
          foldSome (fun s5 item =>
            traverse_and_collect fuel item
              (path ++ [(uniquify_jt (sanitize_name
                (if (path.getLast?).getD "" ≠ "" ∧
                    startsWithPy (match g.2.map Prod.fst with
                      | [k] => k
                      | _ => String.intercalate "+" (g.2.map Prod.fst))
                      ((path.getLast?).getD "" ++ ".") = false
                  then (path.getLast?).getD "" ++ "." ++
                    (match g.2.map Prod.fst with
                      | [k] => k
                      | _ => String.intercalate "+" (g.2.map Prod.fst))
                  else (match g.2.map Prod.fst with
                    | [k] => k
                    | _ => String.intercalate "+" (g.2.map Prod.fst))) 64) s.2).1])
              s5) s3 kr.2 = some s4 →
          s4 = s3 := by
        intro kr hkr s3 s4 hfold
        refine foldSome_id _ ?_ s3 s4 hfold
        intro item hitem s5 s6 hstep2
        exact flat_traverse_id fuel item (hrowsflat g hgmem kr hkr item hitem) _ s5 s6 hstep2
      have hid := foldSome_id _ hinner _ s2 hstep
      rw [emitGroupSpec]
      rw [hid]
      rw [foldl_append_eq_flatten]
      rfl
    have hstepid : st2 = st1 := by
      refine foldSome_id _ ?_ st1 st2 hstep3
      intro kv hkv s s2 hstep
      by_cases hkaod : is_array_of_dicts kv.2 = true
      · rw [if_pos hkaod] at hstep
        injection hstep with h5
        exact h5.symm
      · have hfc := hflat kv hkv
        rw [flatChild, if_neg hkaod] at hfc
        rw [if_neg hkaod, if_neg (by simp [container_scalar hfc])] at hstep
        injection hstep with h5
        exact h5.symm
    rw [hstepid, hgfold]

/-- C5: a value qualifies as a table candidate iff it is an array, it is
non-empty, and every element is an object; in particular the predicate is
false for every empty array, every array containing a non-object element,
and every non-array value. -/
theorem C5_is_array_of_dicts_spec (v : Json) :
    is_array_of_dicts v = true ↔
      ∃ xs, v = Json.arr xs ∧ xs ≠ [] ∧ ∀ x ∈ xs, ∃ kvs, x = Json.obj kvs := by
  constructor
  · intro h
    obtain ⟨xs, rfl, hne, hobj⟩ := aod_shape h
    refine ⟨xs, rfl, hne, ?_⟩
    intro x hx
    have h2 := hobj x hx
    cases x with
    | obj kvs => exact ⟨kvs, rfl⟩
    | null => simp [isObjB] at h2
    | bool b => simp [isObjB] at h2
    | num n => simp [isObjB] at h2
    | str s => simp [isObjB] at h2
    | arr ys => simp [isObjB] at h2
  · rintro ⟨xs, rfl, hne, hobj⟩
    rw [is_array_of_dicts]
    simp only [Bool.and_eq_true_iff, List.all_eq_true]
    constructor
    · simpa using hne
    · intro x hx
      obtain ⟨kvs, rfl⟩ := hobj x hx
      rfl

theorem C5_witness : is_array_of_dicts (Json.arr [Json.obj []]) = true := by
  refine (C5_is_array_of_dicts_spec (Json.arr [Json.obj []])).mpr ?_
  refine ⟨[Json.obj []], rfl, by simp, ?_⟩
  intro x hx
  rw [List.mem_singleton] at hx
  exact ⟨[], hx⟩

/-- C9: for every finite JSON value, both discovery traversals complete
(return `some`) whenever the fuel is at least the size of the input tree —
the recursion is bounded by the size of the input, with no other guard. -/
theorem C9_discovery_terminates (v : Json) (fuel : Nat) (h : sizeOf v ≤ fuel)
    (path : List String) (st : TState) (path2 : String) (out : Registry) (ie : Bool) :
    (∃ st2, traverse_and_collect fuel v path st = some st2) ∧
    (∃ out2, collect_tables fuel v path2 out ie = some out2) :=
  ⟨traverse_total fuel v h path st, collect_total fuel v h path2 out ie⟩

theorem C9_witness :
    sizeOf (Json.obj [("a", Json.arr [Json.obj [("x", Json.num 1)]])]) ≤ 2000 ∧
    ((∃ st2, traverse_and_collect 2000
        (Json.obj [("a", Json.arr [Json.obj [("x", Json.num 1)]])]) [] ([], []) =
        some st2) ∧
      (∃ out2, collect_tables 2000
        (Json.obj [("a", Json.arr [Json.obj [("x", Json.num 1)]])]) "root" [] false =
        some out2)) := by
  refine ⟨by decide, ?_⟩
  exact C9_discovery_terminates _ 2000 (by decide) [] ([], []) "root" [] false

/-- C8: a scalar root, or any input with no array-of-dicts anywhere, leaves
the registry unchanged in both traversals (discovery completes with an empty
registry when it started empty); the empty outcome is not a failure. -/
theorem C8_empty_registry :
    (∀ (fuel : Nat) (v : Json) (path : String) (out out2 : Registry) (ie : Bool),
      isScalarB v = true → collect_tables fuel v path out ie = some out2 → out2 = out) ∧
    (∀ (fuel fm : Nat) (v : Json) (path : String) (out out2 : Registry),
      hasTableF fm v = some false →
      collect_tables fuel v path out false = some out2 → out2 = out) ∧
    (∀ (fuel fm : Nat) (v : Json) (path : List String) (st st2 : TState),
      hasTableF fm v = some false →
      traverse_and_collect fuel v path st = some st2 → st2 = st) := by
  refine ⟨?_, ?_, ?_⟩
  · intro fuel v path out out2 ie hscal h
    cases fuel with
    | zero => rw [collect_tables] at h; cases h
    | succ fuel =>
      cases v with
      | null =>
        have h2 : (some out : Option Registry) = some out2 := h
        injection h2 with h3
        exact h3.symm
      | bool b =>
        have h2 : (some out : Option Registry) = some out2 := h
        injection h2 with h3
        exact h3.symm
      | num n =>
        have h2 : (some out : Option Registry) = some out2 := h
        injection h2 with h3
        exact h3.symm
      | str s =>
        have h2 : (some out : Option Registry) = some out2 := h
        injection h2 with h3
        exact h3.symm
      | arr xs => simp [isScalarB] at hscal
      | obj kvs => simp [isScalarB] at hscal
  · intro fuel fm v path out out2 hnt h
    exact collect_no_tables fuel v fm hnt path out out2 h
  · intro fuel fm v path st st2 hnt h
    exact traverse_no_tables fuel v fm hnt path st st2 h

theorem C8_witness :
    isScalarB (Json.num 7) = true ∧
    hasTableF 4 (Json.obj [("x", Json.str "y")]) = some false ∧
    ([] : Registry) = [] := by
  refine ⟨rfl, rfl, ?_⟩
  have h1 := C8_empty_registry.1 4 (Json.num 7) "root" [] [] true rfl rfl
  have h2 := C8_empty_registry.2.2 4 4 (Json.obj [("x", Json.str "y")]) []
    ([], []) ([], []) rfl rfl
  exact C8_empty_registry.2.1 4 4 (Json.obj [("x", Json.str "y")]) "root" [] [] rfl rfl

/-- C1 counterexample: on `{"a": [{"b": [{"c": 1}]}]}` the `collect_tables`
discovery registers only the outer array under `root.a` and stops — it never
recurses into the rows of a discovered array, so the nested array-of-objects
under `b` is missing from the registry, contradicting the claim that every
array-of-objects at any depth is registered. -/
theorem C1_counterexample :
    collect_tables 10 (Json.obj [("a", Json.arr [Json.obj [("b",
      Json.arr [Json.obj [("c", Json.num 1)]])]])]) "root" [] false =
      some [("root.a", [Json.obj [("b", Json.arr [Json.obj [("c", Json.num 1)]])]])] ∧
    ([("root.a", [Json.obj [("b", Json.arr [Json.obj [("c", Json.num 1)]])]])] :
      Registry).length = 1 := by
  exact ⟨rfl, rfl⟩

/-- C1 (amended): in `traverse_and_collect`, for any document in which every
array-of-objects has a non-empty sampled key union, discovery is complete in
the aggregate: the registry's total row count grows by exactly the total row
count of all array-of-objects subterms at any depth — including arrays
nested inside the rows of a discovered array, since the traversal recurses
into each element object after registering an array.  (The
`collect_tables` variant instead stops at each discovered array.) -/
theorem C1_traverse_discovery_complete (v : Json) (fuel fg ft t : Nat)
    (path : List String) (st st2 : TState)
    (hg : goodDocF fg v = some true)
    (ht : tableRowSumF ft v = some t)
    (h : traverse_and_collect fuel v path st = some st2) :
    sheetsRows st2.1 = sheetsRows st.1 + t :=
  traverse_rowcount_aux (sizeOf v) v le_rfl fuel fg ft t path st st2 hg ht h

theorem C1_witness :
    goodDocF 5 (Json.arr [Json.obj [("x", Json.num 1)]]) = some true ∧
    tableRowSumF 5 (Json.arr [Json.obj [("x", Json.num 1)]]) = some 1 ∧
    sheetsRows (([("root", [Json.obj [("x", Json.num 1)]])], ["root"]) : TState).1 =
      sheetsRows (([], []) : TState).1 + 1 := by
  refine ⟨rfl, rfl, ?_⟩
  exact C1_traverse_discovery_complete (Json.arr [Json.obj [("x", Json.num 1)]])
    5 5 5 1 [] ([], []) ([("root", [Json.obj [("x", Json.num 1)]])], ["root"])
    rfl rfl rfl

/-- C2 counterexample: flattening one row whose column `a` holds a nested
object produces a single opaque column `a` holding the object itself — no
`a.b` sub-column is created, contradicting the claimed recursive dotted
expansion. -/
theorem C2_counterexample :
    rows_to_dataframe [[("a", Json.obj [("b", Json.num 1)])]] =
      ⟨["a"], [[Cell.val (Json.obj [("b", Json.num 1)])]]⟩ ∧
    "a.b" ∉ (rows_to_dataframe [[("a", Json.obj [("b", Json.num 1)])]]).cols := by
  refine ⟨rfl, ?_⟩
  intro hmem
  have h : (rows_to_dataframe [[("a", Json.obj [("b", Json.num 1)])]]).cols = ["a"] := rfl
  rw [h, List.mem_singleton] at hmem
  exact absurd hmem (by decide)

/-- C2 (amended): the flattener performs no nested-object expansion at all:
for non-empty all-object row lists it is `pd.DataFrame(rows)`, whose columns
are exactly the rows' own top-level keys (never synthesized dotted names)
and whose cells hold each row's value for the column verbatim — object- and
array-valued fields alike are left as opaque cell values. -/
theorem C2_no_expansion (rows : List Obj) (hne : rows ≠ []) :
    (∀ c ∈ (rows_to_dataframe rows).cols, ∃ r ∈ rows, c ∈ r.map Prod.fst) ∧
    (rows_to_dataframe rows).cells =
      rows.map (fun r => (rows_to_dataframe rows).cols.map (fun c => cellOf r c)) := by
  rw [rows_to_dataframe, if_neg (by simpa [List.isEmpty_iff] using hne)]
  constructor
  · intro c hc
    exact (pdDataFrame_cols rows c).mp hc
  · rfl

theorem C2_witness :
    ([[("k", Json.num 2)]] : List Obj) ≠ [] ∧
    (∀ c ∈ (rows_to_dataframe [[("k", Json.num 2)]]).cols,
      ∃ r ∈ ([[("k", Json.num 2)]] : List Obj), c ∈ r.map Prod.fst) := by
  refine ⟨by simp, ?_⟩
  exact (C2_no_expansion [[("k", Json.num 2)]] (by simp)).1

/-- C7: for every non-empty list of object rows, the materialized table's
column set is the union of the keys over all rows (no sampling bound), every
row has a cell in every column, and all columns therefore have length equal
to the row count. -/
theorem C7_union_correct (rows : List Obj) (hne : rows ≠ []) :
    (∀ c, c ∈ (rows_to_dataframe rows).cols ↔ ∃ r ∈ rows, c ∈ r.map Prod.fst) ∧
    (rows_to_dataframe rows).cells.length = rows.length ∧
    ∀ rw2 ∈ (rows_to_dataframe rows).cells,
      rw2.length = (rows_to_dataframe rows).cols.length := by
  rw [rows_to_dataframe, if_neg (by simpa [List.isEmpty_iff] using hne)]
  refine ⟨fun c => pdDataFrame_cols rows c, ?_, ?_⟩
  · show (rows.map _).length = rows.length
    rw [List.length_map]
  · intro rw2 hrw2
    have hmem : rw2 ∈ rows.map (fun r =>
        (pdDataFrame rows).cols.map (fun c => cellOf r c)) := hrw2
    rw [List.mem_map] at hmem
    obtain ⟨r, _, rfl⟩ := hmem
    rw [List.length_map]

theorem C7_witness :
    ([[("a", Json.num 1)], [("b", Json.bool true)]] : List Obj) ≠ [] ∧
    (rows_to_dataframe [[("a", Json.num 1)], [("b", Json.bool true)]]).cells.length =
      ([[("a", Json.num 1)], [("b", Json.bool true)]] : List Obj).length := by
  refine ⟨by simp, ?_⟩
  exact (C7_union_correct [[("a", Json.num 1)], [("b", Json.bool true)]] (by simp)).2.1

/-- C3 counterexample: the `json_to_table.py` uniquify never truncates the
base: a sanitized 64-character base name that collides is uniquified to a
66-character name, exceeding the configured 64-character cap — the second
conjunct shows the base is exactly what `sanitize_name` produces at the
64-character limit. -/
theorem C3_counterexample :
    64 < (uniquify_jt (String.mk (List.replicate 64 'a'))
      [String.mk (List.replicate 64 'a')]).1.length ∧
    (sanitize_name (String.mk (List.replicate 64 'a')) 64).length = 64 := by
  constructor
  · decide
  · decide

/-- C3 (amended): every uniquify call returns a name not in the used set and
adds it (so all names issued in one run are pairwise distinct, in both
variants); the `load_json_to_excel.py` variant truncates the base so the
result respects the 31-character sheet-name cap (for any base within the cap
and any realistically sized used set); the `json_to_table.py` variant
appends `_2`, `_3`, … without truncating, so its results may exceed the
64-character cap. -/
theorem C3_uniquify_spec :
    (∀ (name : String) (used : List String),
      (uniquify_jt name used).1 ∉ used ∧
      (uniquify_jt name used).2 = (uniquify_jt name used).1 :: used) ∧
    (∀ (name : String) (used : List String),
      (uniquify_xl name used).1 ∉ used ∧
      (uniquify_xl name used).2 = (uniquify_xl name used).1 :: used) ∧
    (∀ (name : String) (used : List String), name.length ≤ 31 →
      used.length + 3 ≤ 10 ^ 28 → (uniquify_xl name used).1.length ≤ 31) :=
  ⟨fun n u => ⟨uniquify_jt_fresh n u, uniquify_jt_used n u⟩,
    fun n u => ⟨uniquify_xl_fresh n u, uniquify_xl_used n u⟩,
    fun _ _ h1 h2 => uniquify_xl_length h1 h2⟩

theorem C3_witness :
    ("data" : String).length ≤ 31 ∧
    (["data"] : List String).length + 3 ≤ 10 ^ 28 ∧
    (uniquify_xl "data" ["data"]).1.length ≤ 31 ∧
    (uniquify_xl "data" ["data"]).1 ∉ (["data"] : List String) ∧
    (uniquify_jt "data" ["data"]).1 ∉ (["data"] : List String) := by
  refine ⟨by decide, by norm_num, ?_, ?_, ?_⟩
  · exact C3_uniquify_spec.2.2 "data" ["data"] (by decide) (by norm_num)
  · exact (C3_uniquify_spec.2.1 "data" ["data"]).1
  · exact (C3_uniquify_spec.1 "data" ["data"]).1

/-- C4 counterexample: the last-segment naming of `load_json_to_excel.py`
special-cases any path containing `".Result"`: for `root.Result.items` the
code produces base name `Result` although the final named field segment of
the path (which the regex itself would return) is `items`. -/
theorem C4_counterexample :
    lastBaseXl "root.Result.items" = "Result" ∧
    lastSegMatch "root.Result.items" = some "items" := by
  constructor
  · rfl
  · rfl

/-- C4 (amended): in last-segment mode, for any path that does not contain
`".Result"` and ends in a named field segment followed by at most one index
segment, the base name is that final named segment (ignoring the trailing
index segment); in the `json_to_table.py` variant the base is the last path
segment, and an empty path is named `root`.  (A path containing `".Result"`
is special-cased to `Result`, and a path with no such final segment falls
back to the whole path.) -/
theorem C4_last_segment_naming :
    (∀ (q s : String) (idx : Option Nat),
      s.data ≠ [] →
      (∀ c ∈ s.data, sepChar c = false) →
      (q.data = [] ∨ ∃ c, q.data.getLast? = some c ∧ sepChar c = true) →
      subS ".Result" (q ++ s ++ idxStr idx) = false →
      lastBaseXl (q ++ s ++ idxStr idx) = s) ∧
    baseNameJt [] = "root" ∧
    (∀ (l : List String) (x : String), baseNameJt (l ++ [x]) = x) := by
  refine ⟨lastBaseXl_seg, rfl, ?_⟩
  intro l x
  rw [baseNameJt, List.getLast?_concat]
  rfl

theorem C4_witness :
    ("items" : String).data ≠ [] ∧
    subS ".Result" ("root." ++ "items" ++ idxStr (some 3)) = false ∧
    lastBaseXl ("root." ++ "items" ++ idxStr (some 3)) = "items" ∧
    baseNameJt (["root"] ++ ["items"]) = "items" := by
  refine ⟨by decide, by decide, ?_, ?_⟩
  · exact C4_last_segment_naming.1 "root." "items" (some 3) (by decide) (by decide)
      (Or.inr ⟨'.', by decide, by decide⟩) (by decide)
  · exact C4_last_segment_naming.2.2 ["root"] "items"

/-- C6: on the input `{"items": []}`, discovery with `include_empty = false`
produces an empty registry (so no table named `items`), and with
`include_empty = true` it produces exactly one zero-row table whose derived
sheet name is `items`. -/
theorem C6_empty_array_policy :
    collect_tables 5 (Json.obj [("items", Json.arr [])]) "root" [] false = some [] ∧
    collect_tables 5 (Json.obj [("items", Json.arr [])]) "root" [] true =
      some [("root.items", [])] ∧
    sheet_name_xl "root.items" [] = ("items", ["items"]) ∧
    (rows_to_dataframe []).cells.length = 0 := by
  refine ⟨rfl, rfl, rfl, rfl⟩

/-- C10 counterexample: `[{}]` is an array all of whose elements are objects,
yet `traverse_and_collect` on `{"a": [{}]}` registers nothing: a sibling
array whose sampled key union is empty is skipped rather than grouped into a
registry entry named after its key. -/
theorem C10_counterexample :
    is_array_of_dicts (Json.arr [Json.obj []]) = true ∧
    traverse_and_collect 5 (Json.obj [("a", Json.arr [Json.obj []])]) [] ([], []) =
      some ([], []) := by
  constructor
  · rfl
  · rfl

/-- C10 (amended): at a dict node, the array-of-dicts children with a
non-empty sampled key union (union of keys over the first 500 rows) are
grouped by that sampled union — `buildGroups` equals the declarative
`specGroups` — and, on a node whose children contain no deeper structure,
traversal emits exactly one registry entry per group in first-appearance
order: rows are the member arrays' rows concatenated in field-iteration
order, named by the single child key or the keys joined with `+`, prefixed
with the parent path segment and a dot when a parent segment exists and the
name is not already so prefixed, then sanitized and uniquified.  Children
whose sampled union is empty are skipped. -/
theorem C10_grouping (fuel : Nat) (kvs : Obj) (path : List String) (st st2 : TState)
    (hflat : ∀ kv ∈ kvs, flatChild kv.2 = true)
    (h : traverse_and_collect fuel (Json.obj kvs) path st = some st2) :
    buildGroups kvs = specGroups kvs ∧
    st2 = (specGroups kvs).foldl (emitGroupSpec path) st := by
  refine ⟨buildGroups_eq_specGroups kvs, ?_⟩
  rw [← buildGroups_eq_specGroups kvs]
  exact traverse_flat_dict fuel kvs path st st2 hflat h

theorem C10_witness :
    (∀ kv ∈ ([("a", Json.arr [Json.obj [("x", Json.num 1)]]),
        ("b", Json.arr [Json.obj [("x", Json.num 2)]])] : Obj),
      flatChild kv.2 = true) ∧
    (([("a+b", [Json.obj [("x", Json.num 1)], Json.obj [("x", Json.num 2)]])],
        ["a+b"]) : TState) =
      (specGroups [("a", Json.arr [Json.obj [("x", Json.num 1)]]),
        ("b", Json.arr [Json.obj [("x", Json.num 2)]])]).foldl
        (emitGroupSpec []) (([], []) : TState) := by
  refine ⟨by decide, ?_⟩
  exact (C10_grouping 5 [("a", Json.arr [Json.obj [("x", Json.num 1)]]),
    ("b", Json.arr [Json.obj [("x", Json.num 2)]])] [] ([], [])
    ([("a+b", [Json.obj [("x", Json.num 1)], Json.obj [("x", Json.num 2)]])], ["a+b"])
    (by decide) rfl).2
